import Mathlib

/-!
# Bloom filter (hugoluchessi/bloomfilter): shallow embedding and verification

The development embeds `bloomfilter.go` and `errors.go`.

Modelling conventions

* `uint64` values are natural numbers; the only integer operation of the package is
  `hashValue % bf.m`, which cannot overflow.
* The sizing functions are given twice. `optimalM`, `optimalK` and `CreateBloomFilter`
  idealise `float64` arithmetic (`math.Log`, `math.Ceil`, `*`, `/`) as exact arithmetic
  over the real numbers and `uint64(f)` as the integer value of a non-negative `f`; they
  are used at the inputs where this agrees with the float64 evaluation (`p = 1`, `m = 0`,
  the test's `n = 1000`, `p = 0.1`) and for the validation branches. `F64.optimalM`,
  `F64.optimalK` and `F64.CreateBloomFilter` evaluate the same expressions in float64,
  with rounding to nearest, ties to even; the statements about the sizes of a filter for
  arbitrary `n` and `p` are made about them.
* A Go run-time panic (integer division by zero, slice index out of range) is an explicit
  `Except.error` result.
* The packages `bitarray`, `xxhash`, `goerrors` and `math/rand` are external: the bit array
  is modelled from the specification, the digest function of the hasher, the outcome of
  an allocation and the random stream are arguments.
-/

set_option autoImplicit false

namespace Bloomfilter

/-! ## Bytes and the external hash primitive -/

/-- A Go `byte`. -/
abbrev Byte := Fin 256

/-- The Go conversion `byte(x)` of an unsigned integer: the low eight bits. -/
def toByte (x : Nat) : Byte := ⟨x % 256, Nat.mod_lt _ (by decide)⟩

/-- The digest function of the external hash package: `sum64 seed data` is the 64-bit
digest of the bytes `data` written so far to a hasher created with seed `seed`. -/
abbrev Sum64 := Nat → List Byte → Nat

/-- State of one `xxhash.XXHash64` hasher: its seed and the bytes written to it with
`Write`. The bloom filter never calls `Write`, so `written` stays empty. -/
structure XXHash64 where
  seed : Nat
  written : List Byte
  deriving DecidableEq, Repr

/-- The constructor `xxhash.NewS64(seed)`: a hasher with nothing written. -/
def NewS64 (seed : Nat) : XXHash64 := ⟨seed, []⟩

/-- The eight bytes `byte(s>>56), byte(s>>48), ..., byte(s)` of a digest. -/
def digestBytes (s : Nat) : List Byte :=
  [toByte (s >>> 56), toByte (s >>> 48), toByte (s >>> 40), toByte (s >>> 32),
   toByte (s >>> 24), toByte (s >>> 16), toByte (s >>> 8), toByte s]

/-- The method `hash.Hash.Sum(b)`: it appends the current digest (of the bytes written
so far) to `b` and returns the resulting slice. It does not hash `b`. -/
def XXHash64.Sum (sum64 : Sum64) (xx : XXHash64) (b : List Byte) : List Byte :=
  b ++ digestBytes (sum64 xx.seed xx.written)

/-- The decoder `binary.LittleEndian.Uint64`: least significant byte first. -/
def littleEndianUint64 : List Byte → Nat
  | [] => 0
  | b :: bs => b.val + 256 * littleEndianUint64 bs

/-- The call `binary.Read(buf, binary.LittleEndian, &hashValue)` on a `uint64` that
starts at zero: the first eight bytes of the buffer are decoded; when fewer than eight
bytes are available the read fails, the error is dropped and the variable keeps zero. -/
def binaryRead (buf : List Byte) : Nat :=
  if buf.length < 8 then 0 else littleEndianUint64 (buf.take 8)

/-! ## The external bit array -/

/-- Errors of the external bit-array package. -/
inductive BitArrayError where
  | outOfRange (index : Nat)
  | allocation (size : Nat)
  deriving DecidableEq, Repr

/-- Modelled from the spec: the external bit-array primitive `bitarray.BitArray`, a
fixed-size sequence of bits. -/
structure BitArray where
  bits : List Bool
  deriving DecidableEq, Repr

/-- Number of bits of a bit array. -/
def BitArray.size (a : BitArray) : Nat := a.bits.length

/-- Modelled from the spec: `bitarray.NewBitArray(size)` allocates a zero-initialised
bit array of `size` bits; `allocFails size` tells whether the allocation fails. -/
def NewBitArray (allocFails : Nat → Bool) (size : Nat) : Except BitArrayError BitArray :=
  if allocFails size then .error (.allocation size) else .ok ⟨List.replicate size false⟩

/-- Modelled from the spec: `TurnOn(index)` sets the bit and fails with an out-of-range
error for `index >= size`. -/
def BitArray.TurnOn (a : BitArray) (index : Nat) : Except BitArrayError BitArray :=
  if index < a.size then .ok ⟨a.bits.set index true⟩ else .error (.outOfRange index)

/-- Modelled from the spec: `IndexValue(index)` reads the bit and fails with an
out-of-range error for `index >= size`. -/
def BitArray.IndexValue (a : BitArray) (index : Nat) : Except BitArrayError Bool :=
  if index < a.size then .ok (a.bits.getD index false) else .error (.outOfRange index)

/-- Whether position `j` is set (out-of-range positions are not set). -/
def BitArray.isSet (a : BitArray) (j : Nat) : Bool := a.bits.getD j false

/-! ## errors.go -/

/-- The dynamic value stored in the `interface{}` field of an `InvalidArgumentError`. -/
inductive ArgValue where
  | uint64 (n : Nat)
  | float64 (p : ℝ)

/-- The struct `InvalidArgumentError`. -/
structure InvalidArgumentError where
  m : String
  name : String
  v : ArgValue

/-- The constructor `NewInvalidArgumentError`. -/
def NewInvalidArgumentError (m name : String) (v : ArgValue) : InvalidArgumentError :=
  ⟨m, name, v⟩

/-- The method `InvalidArgumentError.Error`. -/
def InvalidArgumentError.Error (err : InvalidArgumentError) : String := err.m

/-- A Go `error` value as produced by this package: an `InvalidArgumentError`, or the
result of `goerrors.WrapError` on an error of the bit array. -/
inductive Error where
  | invalidArgument (e : InvalidArgumentError)
  | wrapped (cause : BitArrayError)

/-- The helper `goerrors.WrapError`: the cause is kept. -/
def WrapError (err : BitArrayError) : Error := .wrapped err

/-- A Go run-time panic. -/
inductive Panic where
  | integerDivideByZero
  | indexOutOfRange
  deriving DecidableEq, Repr

/-! ## bloomfilter.go -/

/-- The constant `invalidNErrorMessage`. -/
def invalidNErrorMessage : String := "Paramater [n] should be greater than zero."

/-- The constant `invalidPErrorMessage`. -/
def invalidPErrorMessage : String := "Paramater [p] should be greater than zero."

/-- The struct `BloomFilter`. -/
structure BloomFilter where
  k : Nat
  n : Nat
  m : Nat
  a : BitArray
  h : List XXHash64
  deriving DecidableEq, Repr

/-- The zero value `BloomFilter{}`. -/
def BloomFilter.zero : BloomFilter := ⟨0, 0, 0, ⟨[]⟩, []⟩

/-- The conversion `uint64(f)` of an integer-valued float in the idealised sizing: its
value when non-negative (exact for `0 <= f < 2^64`; see `toUint64` for the conversion
with its implementation-dependent part). -/
def uint64OfFloat (z : ℤ) : Nat := z.toNat

/-- The function `optimalK`:
`uint64(math.Ceil(float64(m) * math.Ln2 / float64(n)))`, idealised over the real numbers
(`F64.optimalK` is its float64 evaluation). -/
noncomputable def optimalK (n m : Nat) : Nat :=
  uint64OfFloat ⌈(m : ℝ) * Real.log 2 / (n : ℝ)⌉

/-- The function `optimalM`:
`uint64(math.Ceil(-float64(n) * math.Log(p) / (math.Ln2 * math.Ln2)))`, idealised over
the real numbers (`F64.optimalM` is its float64 evaluation). -/
noncomputable def optimalM (n : Nat) (p : ℝ) : Nat :=
  uint64OfFloat ⌈-(n : ℝ) * Real.log p / (Real.log 2 * Real.log 2)⌉

/-- What `CreateBloomFilter` takes from its environment: whether the allocation of a bit
array of a given size fails, and the successive results of `rand.Uint64()`. -/
structure Env where
  allocFails : Nat → Bool
  rand : Nat → Nat

/-- The function `CreateBloomFilter`. -/
noncomputable def CreateBloomFilter (env : Env) (n : Nat) (p : ℝ) :
    BloomFilter × Option Error :=
  if n = 0 then
    (BloomFilter.zero,
      some (.invalidArgument (NewInvalidArgumentError invalidNErrorMessage "n" (.uint64 n))))
  else if p ≤ 0 then
    (BloomFilter.zero,
      some (.invalidArgument (NewInvalidArgumentError invalidPErrorMessage "p" (.float64 p))))
  else
    let m := optimalM n p
    let k := optimalK n m
    match NewBitArray env.allocFails m with
    | .error err => (BloomFilter.zero, some (WrapError err))
    | .ok a =>
      let h := (List.range k).map (fun i => NewS64 (env.rand i % 2 ^ 64))
      (⟨k, n, m, a, h⟩, none)

/-- The loop of `bitIndexesToCheck`: `i` is the range index, the second argument the
hashers still to visit, `indexes` the slice being filled. -/
def bitIndexesLoop (sum64 : Sum64) (m : Nat) (v : List Byte) :
    Nat → List XXHash64 → List Nat → Except Panic (List Nat)
  | _, [], indexes => .ok indexes
  | i, hash :: rest, indexes =>
    let hashBinary := hash.Sum sum64 v
    let hashValue := binaryRead hashBinary
    if m = 0 then .error .integerDivideByZero
    else
      let bitToBeSet := hashValue % m
      if i < indexes.length then
        bitIndexesLoop sum64 m v (i + 1) rest (indexes.set i bitToBeSet)
      else .error .indexOutOfRange

/-- The method `bitIndexesToCheck`. -/
def bitIndexesToCheck (sum64 : Sum64) (bf : BloomFilter) (v : List Byte) :
    Except Panic (List Nat) :=
  bitIndexesLoop sum64 bf.m v 0 bf.h (List.replicate bf.k 0)

/-- The loop of `Add` over the indexes: the bit array after the loop and the returned
error. -/
def addLoop (a : BitArray) : List Nat → BitArray × Option Error
  | [] => (a, none)
  | i :: rest =>
    match a.TurnOn i with
    | .error err => (a, some (WrapError err))
    | .ok a' => addLoop a' rest

/-- The method `Add`: the filter after the call (its bit array is shared with the
receiver, so the writes persist) and the returned error. -/
def Add (sum64 : Sum64) (bf : BloomFilter) (v : List Byte) :
    Except Panic (BloomFilter × Option Error) :=
  match bitIndexesToCheck sum64 bf v with
  | .error p => .error p
  | .ok indexes =>
    let r := addLoop bf.a indexes
    .ok (⟨bf.k, bf.n, bf.m, r.1, bf.h⟩, r.2)

/-- The loop of `Contains` over the indexes. -/
def containsLoop (a : BitArray) : List Nat → Bool × Option Error
  | [] => (true, none)
  | i :: rest =>
    match a.IndexValue i with
    | .error err => (false, some (WrapError err))
    | .ok isSet => if !isSet then (false, none) else containsLoop a rest

/-- The method `Contains`. -/
def Contains (sum64 : Sum64) (bf : BloomFilter) (v : List Byte) :
    Except Panic (Bool × Option Error) :=
  match bitIndexesToCheck sum64 bf v with
  | .error p => .error p
  | .ok indexes => .ok (containsLoop bf.a indexes)

/-- The client loop that calls `Add` on each value in turn, dropping the returned
errors; a panic ends the run. -/
def AddAll (sum64 : Sum64) : BloomFilter → List (List Byte) → Except Panic BloomFilter
  | bf, [] => .ok bf
  | bf, w :: ws =>
    match Add sum64 bf w with
    | .error p => .error p
    | .ok r => AddAll sum64 r.1 ws

/-- An operation on a filter. -/
inductive Op where
  | add (v : List Byte)
  | contains (v : List Byte)

/-- The filter after one operation: `Add` leaves the filter it returns (also when it
returns an error), a panic leaves the filter as it was, `Contains` only reads. -/
def step (sum64 : Sum64) (bf : BloomFilter) : Op → BloomFilter
  | .add v =>
    match Add sum64 bf v with
    | .ok r => r.1
    | .error _ => bf
  | .contains _ => bf

/-- The filter after a sequence of operations. -/
def run (sum64 : Sum64) (bf : BloomFilter) (ops : List Op) : BloomFilter :=
  ops.foldl (step sum64) bf

/-- The filters a client can hold: those returned by `CreateBloomFilter` (the zero value
returned with an error included) and those obtained from them by calls of `Add`. -/
inductive Reachable (sum64 : Sum64) : BloomFilter → Prop where
  | create (env : Env) (n : Nat) (p : ℝ) : Reachable sum64 (CreateBloomFilter env n p).1
  | add {bf : BloomFilter} (v : List Byte) (r : BloomFilter × Option Error) :
      Reachable sum64 bf → Add sum64 bf v = .ok r → Reachable sum64 r.1

/-- Representation invariant of a filter: one hasher per hash function, a bit array of
`m` bits, and no hash function when there is no bit. -/
def BloomFilter.WF (bf : BloomFilter) : Prop :=
  bf.h.length = bf.k ∧ bf.a.size = bf.m ∧ (bf.m = 0 → bf.k = 0)

/-- The position computed from one hasher: the value read from `hash.Sum(v)`, reduced
modulo `m`. -/
def bitIndex (sum64 : Sum64) (m : Nat) (v : List Byte) (hash : XXHash64) : Nat :=
  binaryRead (hash.Sum sum64 v) % m

/-- The part of a position that comes from hasher `hash` when the value has `len < 8`
bytes: the leading `8 - len` bytes of the digest of the empty input, placed after the
bytes of the value. -/
def digestPart (sum64 : Sum64) (len : Nat) (hash : XXHash64) : Nat :=
  256 ^ len * littleEndianUint64 ((digestBytes (sum64 hash.seed hash.written)).take (8 - len))

/-! ## The digest function of the external hash package -/

/-- The constant `prime64x1` of xxHash64. -/
def prime64x1 : Nat := 11400714785074694791

/-- The constant `prime64x2` of xxHash64. -/
def prime64x2 : Nat := 14029467366897019727

/-- The constant `prime64x3` of xxHash64. -/
def prime64x3 : Nat := 1609587929392839161

/-- The constant `prime64x4` of xxHash64. -/
def prime64x4 : Nat := 9650029242287828579

/-- The constant `prime64x5` of xxHash64. -/
def prime64x5 : Nat := 2870177450012600261

/-- Truncation to 64 bits. -/
def u64 (x : Nat) : Nat := x % 2 ^ 64

/-- Rotation to the left of a 64-bit value by `r` bits, `0 < r < 64`. -/
def rotl64 (x r : Nat) : Nat := u64 (x <<< r) ||| (x >>> (64 - r))

/-- The round function of xxHash64. -/
def round64 (acc input : Nat) : Nat :=
  u64 (rotl64 (u64 (acc + u64 (input * prime64x2))) 31 * prime64x1)

/-- The merge step of xxHash64. -/
def mergeRound64 (acc val : Nat) : Nat :=
  u64 (u64 ((acc ^^^ round64 0 val) * prime64x1) + prime64x4)

/-- The final avalanche of xxHash64. -/
def mix64 (h : Nat) : Nat :=
  let h1 := h ^^^ (h >>> 33)
  let h2 := u64 (h1 * prime64x2)
  let h3 := h2 ^^^ (h2 >>> 29)
  let h4 := u64 (h3 * prime64x3)
  h4 ^^^ (h4 >>> 32)

/-- The 32-byte stripes of xxHash64: the four accumulators after the stripes and the
bytes left over. -/
def stripes64 : Nat → List Byte → Nat × Nat × Nat × Nat → (Nat × Nat × Nat × Nat) × List Byte
  | 0, d, s => (s, d)
  | fuel + 1, d, (v1, v2, v3, v4) =>
    if 32 ≤ d.length then
      stripes64 fuel (d.drop 32)
        (round64 v1 (littleEndianUint64 (d.take 8)),
         round64 v2 (littleEndianUint64 ((d.drop 8).take 8)),
         round64 v3 (littleEndianUint64 ((d.drop 16).take 8)),
         round64 v4 (littleEndianUint64 ((d.drop 24).take 8)))
    else ((v1, v2, v3, v4), d)

/-- The 8-byte words that follow the stripes. -/
def words64 : Nat → List Byte → Nat → Nat × List Byte
  | 0, d, h => (h, d)
  | fuel + 1, d, h =>
    if 8 ≤ d.length then
      words64 fuel (d.drop 8)
        (u64 (u64 (rotl64 (h ^^^ round64 0 (littleEndianUint64 (d.take 8))) 27 * prime64x1)
          + prime64x4))
    else (h, d)

/-- The 4-byte word that may follow the 8-byte words. -/
def word32 (d : List Byte) (h : Nat) : Nat × List Byte :=
  if 4 ≤ d.length then
    (u64 (u64 (rotl64 (h ^^^ u64 (littleEndianUint64 (d.take 4) * prime64x1)) 23 * prime64x2)
      + prime64x3), d.drop 4)
  else (h, d)

/-- The last bytes, one at a time. -/
def bytes64 : List Byte → Nat → Nat
  | [], h => h
  | b :: d, h => bytes64 d (u64 (rotl64 (h ^^^ u64 (b.val * prime64x5)) 11 * prime64x1))

/-- The digest function of the `xxhash` package: xxHash64 of `data` with seed `seed`
(the external package is not part of the repository; this is the published algorithm,
used where a statement needs the concrete digest). -/
def xxh64 (seed : Nat) (data : List Byte) : Nat :=
  let s := u64 seed
  let start : Nat × List Byte :=
    if 32 ≤ data.length then
      let r := stripes64 data.length data
        (u64 (s + prime64x1 + prime64x2), u64 (s + prime64x2), s, u64 (s + 2 ^ 64 - prime64x1))
      let h := u64 (rotl64 r.1.1 1 + rotl64 r.1.2.1 7 + rotl64 r.1.2.2.1 12 + rotl64 r.1.2.2.2 18)
      (mergeRound64 (mergeRound64 (mergeRound64 (mergeRound64 h r.1.1) r.1.2.1) r.1.2.2.1)
        r.1.2.2.2, r.2)
    else (u64 (s + prime64x5), data)
  let w := words64 start.2.length start.2 (u64 (start.1 + data.length))
  let q := word32 w.2 w.1
  mix64 (bytes64 q.2 q.1)

/-- An environment in which allocations succeed and `rand.Uint64()` returns 1, 2, 3, ... -/
def testEnv : Env := ⟨fun _ => false, fun i => i + 1⟩

/-- A small filter with two hashers and seven bits, all clear. -/
def smallFilter : BloomFilter :=
  ⟨2, 3, 7, ⟨List.replicate 7 false⟩, [NewS64 1, NewS64 2]⟩

/-- The first value of the repository's test. -/
def v1 : List Byte := [1, 2, 3, 4, 5]

/-- The second value of the repository's test. -/
def v2 : List Byte := [11, 22, 33, 44, 55]

/-- The filter of the repository's test, `CreateBloomFilter(1000, 0.1)`, with the seeds
1, 2, 3, 4. -/
def testFilter : BloomFilter :=
  ⟨4, 1000, 4793, ⟨List.replicate 4793 false⟩, [NewS64 1, NewS64 2, NewS64 3, NewS64 4]⟩

/-- The filter `smallFilter` after `Add(v1)`. -/
def smallFilterAdded : BloomFilter :=
  ⟨2, 3, 7, ⟨[true, false, false, false, false, true, false]⟩, [NewS64 1, NewS64 2]⟩

/-- A value of eight bytes. -/
def v8 : List Byte := [1, 2, 3, 4, 5, 6, 7, 8]

/-- A value of nine bytes whose first eight bytes are those of `v8`. -/
def v9 : List Byte := [1, 2, 3, 4, 5, 6, 7, 8, 9]

/-- The positions that `Add(v)` writes: the positions computed for `v`, up to the first
one that is out of range for the bit array (where `Add` returns the error). -/
def writtenPositions (sum64 : Sum64) (bf : BloomFilter) (v : List Byte) : List Nat :=
  match bitIndexesToCheck sum64 bf v with
  | .ok idxs => idxs.takeWhile (fun i => decide (i < bf.a.size))
  | .error _ => []

/-! ## The sizing functions in float64

The functions `optimalM`, `optimalK` and `CreateBloomFilter` above idealise `float64` as
the real numbers. The definitions below follow the float64 evaluation of the same source
expressions: every conversion, product and quotient is rounded to the nearest float64,
ties to even; `math.Log` and the result of `uint64(f)` for an unrepresentable `f`, which Go
leaves to the implementation, are arguments. Values at or beyond `2 ^ 1024`, where float64
has `+Inf`, stay real numbers at or beyond `2 ^ 1024`; like `+Inf` they are out of range
for the conversion to `uint64`. -/

/-- Rounding of a real number to the nearest integer, ties to the even one. -/
noncomputable def roundHalfEven (y : ℝ) : ℤ :=
  if y - ⌊y⌋ < 1 / 2 then ⌊y⌋
  else if 1 / 2 < y - ⌊y⌋ then ⌊y⌋ + 1
  else if Even ⌊y⌋ then ⌊y⌋ else ⌊y⌋ + 1

/-- The exponent of the unit in the last place of a float64 at `x`. -/
noncomputable def ulpExp (x : ℝ) : ℤ := max (Int.log 2 |x|) (-1022) - 52

/-- The rounding of a real number to float64 (IEEE-754 binary64, round to nearest, ties
to even, with gradual underflow): the nearest multiple of the unit in the last place. -/
noncomputable def roundFloat64 (x : ℝ) : ℝ :=
  (roundHalfEven (x / (2 : ℝ) ^ ulpExp x) : ℝ) * (2 : ℝ) ^ ulpExp x

/-- The constant `math.Ln2`. -/
noncomputable def Ln2 : ℝ := 0.693147180559945309417232121458176568075500134360255254120680009

/-- What the float64 sizing takes from outside the repository: the function `math.Log`
on positive finite arguments, and the result of the conversion `uint64(f)` for an integral
`f` outside `[0, 2^64)`, which is implementation-dependent. -/
structure Float64Env where
  log : ℝ → ℝ
  ovf : ℤ → Nat

/-- The conversion `uint64(f)` of an integer-valued float64. -/
def toUint64 (fe : Float64Env) (z : ℤ) : Nat :=
  if 0 ≤ z ∧ z < 2 ^ 64 then z.toNat else fe.ovf z % 2 ^ 64

/-- The variable `floatK` of `optimalK`:
`math.Ceil(float64(m) * math.Ln2 / float64(n))` in float64. The constructor calls it with
`n > 0` only; for `n = 0` the quotient of the source is not finite and the value here has
no meaning. -/
noncomputable def F64.floatK (n m : Nat) : ℤ :=
  ⌈roundFloat64 (roundFloat64 (roundFloat64 (m : ℝ) * roundFloat64 Ln2) / roundFloat64 (n : ℝ))⌉

/-- The function `optimalK` in float64. -/
noncomputable def F64.optimalK (fe : Float64Env) (n m : Nat) : Nat :=
  toUint64 fe (F64.floatK n m)

/-- The variable `floatM` of `optimalM`:
`math.Ceil(-float64(n) * math.Log(p) / (math.Ln2 * math.Ln2))` in float64; the constant
expression `math.Ln2 * math.Ln2` is evaluated exactly and rounded once. -/
noncomputable def F64.floatM (fe : Float64Env) (n : Nat) (p : ℝ) : ℤ :=
  ⌈roundFloat64 (roundFloat64 (-(roundFloat64 (n : ℝ)) * fe.log p) / roundFloat64 (Ln2 * Ln2))⌉

/-- The function `optimalM` in float64. -/
noncomputable def F64.optimalM (fe : Float64Env) (n : Nat) (p : ℝ) : Nat :=
  toUint64 fe (F64.floatM fe n p)

/-- The function `CreateBloomFilter` with the sizing evaluated in float64. -/
noncomputable def F64.CreateBloomFilter (fe : Float64Env) (env : Env) (n : Nat) (p : ℝ) :
    BloomFilter × Option Error :=
  if n = 0 then
    (BloomFilter.zero,
      some (.invalidArgument (NewInvalidArgumentError invalidNErrorMessage "n" (.uint64 n))))
  else if p ≤ 0 then
    (BloomFilter.zero,
      some (.invalidArgument (NewInvalidArgumentError invalidPErrorMessage "p" (.float64 p))))
  else
    let m := F64.optimalM fe n p
    let k := F64.optimalK fe n m
    match NewBitArray env.allocFails m with
    | .error err => (BloomFilter.zero, some (WrapError err))
    | .ok a =>
      let h := (List.range k).map (fun i => NewS64 (env.rand i % 2 ^ 64))
      (⟨k, n, m, a, h⟩, none)

/-- A `math.Log` that returns the float64 nearest to the natural logarithm. -/
noncomputable def nearestLog (x : ℝ) : ℝ := roundFloat64 (Real.log x)

/-- The result of `uint64(f)` for an unrepresentable `f` as compiled for amd64: the
two's complement of a negative value down to `-2^63`, and `2^63` otherwise. -/
def amd64Uint64 (z : ℤ) : Nat :=
  if z < 0 then (if -2 ^ 63 ≤ z then (2 ^ 64 + z).toNat else 2 ^ 63) else 2 ^ 63

/-- The amd64 conversion together with the nearest-float64 logarithm. -/
noncomputable def amd64 : Float64Env := ⟨nearestLog, amd64Uint64⟩

/-! ## The bit array -/

theorem isSet_set (l : List Bool) (i j : Nat) :
    (l.set i true).getD j false = (l.getD j false || (decide (i = j) && decide (i < l.length))) := by
  simp only [List.getD_eq_getElem?_getD, List.getElem?_set]
  by_cases hij : i = j
  · subst hij
    by_cases hi : i < l.length
    · simp [hi]
    · simp [hi, List.getElem?_eq_none (Nat.le_of_not_lt hi)]
  · simp [hij]

theorem TurnOn_ok {a a' : BitArray} {i : Nat} (h : a.TurnOn i = .ok a') :
    i < a.size ∧ a'.size = a.size ∧ ∀ j, a'.isSet j = (a.isSet j || decide (i = j)) := by
  unfold BitArray.TurnOn at h
  split at h
  · rename_i hi
    injection h with h
    subst h
    refine ⟨hi, by simp [BitArray.size], fun j => ?_⟩
    have hi' : i < a.bits.length := hi
    simp only [BitArray.isSet]
    rw [isSet_set]
    simp [hi']
  · cases h

theorem TurnOn_of_lt {a : BitArray} {i : Nat} (h : i < a.size) :
    a.TurnOn i = .ok ⟨a.bits.set i true⟩ := by
  simp [BitArray.TurnOn, h]

theorem TurnOn_error {a : BitArray} {i : Nat} {e : BitArrayError} (h : a.TurnOn i = .error e) :
    ¬ i < a.size ∧ e = .outOfRange i := by
  unfold BitArray.TurnOn at h
  split at h
  · cases h
  · rename_i hi
    injection h with h
    exact ⟨hi, h.symm⟩

theorem isSet_lt_size {a : BitArray} {j : Nat} (h : a.isSet j = true) : j < a.size := by
  by_contra hj
  have : a.bits.getD j false = false := by
    simp [List.getD_eq_getElem?_getD, List.getElem?_eq_none (Nat.le_of_not_lt hj)]
  simp only [BitArray.isSet] at h
  rw [this] at h
  cases h

theorem IndexValue_of_lt {a : BitArray} {i : Nat} (h : i < a.size) :
    a.IndexValue i = .ok (a.isSet i) := by
  simp [BitArray.IndexValue, BitArray.isSet, h]

theorem IndexValue_of_not_lt {a : BitArray} {i : Nat} (h : ¬ i < a.size) :
    a.IndexValue i = .error (.outOfRange i) := by
  simp [BitArray.IndexValue, h]

theorem set_true_of_isSet (l : List Bool) (i : Nat) (h : l.getD i false = true) :
    l.set i true = l := by
  induction l generalizing i with
  | nil => rfl
  | cons b l ih =>
    cases i with
    | zero =>
      have hb : b = true := by simpa using h
      simp [hb]
    | succ i =>
      have hl : l.getD i false = true := by simpa using h
      simp [List.set, ih i hl]

/-! ## The loops of `Add` and `Contains` -/

theorem addLoop_size (a : BitArray) (idxs : List Nat) : (addLoop a idxs).1.size = a.size := by
  induction idxs generalizing a with
  | nil => rfl
  | cons i rest ih =>
    unfold addLoop
    split
    · rfl
    · rename_i a' h
      rw [ih a', (TurnOn_ok h).2.1]

theorem addLoop_mono (a : BitArray) (idxs : List Nat) (j : Nat) (hj : a.isSet j = true) :
    (addLoop a idxs).1.isSet j = true := by
  induction idxs generalizing a with
  | nil => exact hj
  | cons i rest ih =>
    unfold addLoop
    split
    · exact hj
    · rename_i a' h
      apply ih a'
      rw [(TurnOn_ok h).2.2 j, hj]
      rfl

theorem addLoop_of_lt (a : BitArray) (idxs : List Nat) (hlt : ∀ i ∈ idxs, i < a.size) :
    (addLoop a idxs).2 = none ∧
      ∀ j, (addLoop a idxs).1.isSet j = (a.isSet j || decide (j ∈ idxs)) := by
  induction idxs generalizing a with
  | nil => simp [addLoop]
  | cons i rest ih =>
    have hi : i < a.size := hlt i (List.mem_cons_self _ _)
    have hto := TurnOn_of_lt hi
    have hok := TurnOn_ok hto
    have hrest : ∀ x ∈ rest, x < (BitArray.mk (a.bits.set i true)).size := by
      intro x hx
      rw [hok.2.1]
      exact hlt x (List.mem_cons_of_mem _ hx)
    obtain ⟨h1, h2⟩ := ih _ hrest
    unfold addLoop
    rw [hto]
    refine ⟨h1, fun j => ?_⟩
    show (addLoop (BitArray.mk (a.bits.set i true)) rest).1.isSet j = _
    rw [h2 j, hok.2.2 j]
    by_cases hij : i = j
    · subst hij
      simp
    · have hji : ¬ j = i := fun h => hij h.symm
      simp [hij, hji]

theorem addLoop_none (a : BitArray) (idxs : List Nat) (h : (addLoop a idxs).2 = none) :
    ∀ i ∈ idxs, i < a.size := by
  induction idxs generalizing a with
  | nil => simp
  | cons i rest ih =>
    unfold addLoop at h
    split at h
    · cases h
    · rename_i a' hto
      intro x hx
      rcases List.mem_cons.1 hx with hx | hx
      · subst hx
        exact (TurnOn_ok hto).1
      · have := ih a' h x hx
        rwa [(TurnOn_ok hto).2.1] at this

theorem addLoop_idem (a : BitArray) (idxs : List Nat) :
    addLoop (addLoop a idxs).1 idxs = addLoop a idxs := by
  induction idxs generalizing a with
  | nil => rfl
  | cons i rest ih =>
    by_cases hi : i < a.size
    · have hto := TurnOn_of_lt hi
      have hok := TurnOn_ok hto
      have hfst : addLoop a (i :: rest) = addLoop ⟨a.bits.set i true⟩ rest := by
        conv_lhs => unfold addLoop
        rw [hto]
      rw [hfst]
      have hset : (addLoop ⟨a.bits.set i true⟩ rest).1.isSet i = true := by
        apply addLoop_mono
        rw [hok.2.2 i]
        simp
      have hsz : i < (addLoop ⟨a.bits.set i true⟩ rest).1.size := isSet_lt_size hset
      conv_lhs => unfold addLoop
      rw [TurnOn_of_lt hsz]
      show addLoop ⟨(addLoop ⟨a.bits.set i true⟩ rest).1.bits.set i true⟩ rest = _
      rw [set_true_of_isSet _ _ hset]
      exact ih _
    · have hto : a.TurnOn i = .error (.outOfRange i) := by simp [BitArray.TurnOn, hi]
      have hfst : addLoop a (i :: rest) = (a, some (WrapError (.outOfRange i))) := by
        conv_lhs => unfold addLoop
        rw [hto]
      rw [hfst]
      exact hfst

theorem containsLoop_of_lt (a : BitArray) (idxs : List Nat) (hlt : ∀ i ∈ idxs, i < a.size) :
    containsLoop a idxs = (idxs.all a.isSet, none) := by
  induction idxs with
  | nil => rfl
  | cons i rest ih =>
    have hi : i < a.size := hlt i (List.mem_cons_self _ _)
    unfold containsLoop
    rw [IndexValue_of_lt hi]
    cases hs : a.isSet i
    · simp [hs]
    · simp [hs, ih (fun x hx => hlt x (List.mem_cons_of_mem _ hx))]

theorem containsLoop_none (a : BitArray) (idxs : List Nat) (b : Bool)
    (h : containsLoop a idxs = (b, none)) : b = idxs.all a.isSet := by
  induction idxs with
  | nil =>
    simp only [containsLoop, Prod.mk.injEq] at h
    simp [← h.1]
  | cons i rest ih =>
    unfold containsLoop at h
    by_cases hi : i < a.size
    · rw [IndexValue_of_lt hi] at h
      cases hs : a.isSet i
      · simp only [hs, Bool.not_false, if_true, Prod.mk.injEq] at h
        simp [← h.1, hs]
      · simp only [hs, Bool.not_true] at h
        simp [ih h, hs]
    · rw [IndexValue_of_not_lt hi] at h
      simp at h

/-! ## Index derivation -/

theorem take_set_self (l : List Nat) (i b : Nat) : (l.set i b).take i = l.take i := by
  apply List.ext_getElem?
  intro j
  rw [List.getElem?_take, List.getElem?_take]
  split
  · rw [List.getElem?_set_ne (by omega)]
  · rfl

theorem bitIndexesLoop_ok (sum64 : Sum64) (m : Nat) (v : List Byte) (hm : 0 < m)
    (hs : List XXHash64) (i : Nat) (idxs : List Nat) (hlen : i + hs.length ≤ idxs.length) :
    bitIndexesLoop sum64 m v i hs idxs =
      .ok (idxs.take i ++ hs.map (bitIndex sum64 m v) ++ idxs.drop (i + hs.length)) := by
  induction hs generalizing i idxs with
  | nil => simp [bitIndexesLoop]
  | cons hash rest ih =>
    have hi : i < idxs.length := by
      simp only [List.length_cons] at hlen
      omega
    have hlen' : i + 1 + rest.length ≤ (idxs.set i (bitIndex sum64 m v hash)).length := by
      simp only [List.length_cons] at hlen
      simp only [List.length_set]
      omega
    unfold bitIndexesLoop
    simp only [Nat.ne_of_gt hm, if_false, hi, if_true]
    have hrec := ih (i + 1) (idxs.set i (bitIndex sum64 m v hash)) hlen'
    simp only [bitIndex] at hrec ⊢
    rw [hrec]
    congr 1
    rw [List.take_succ, take_set_self, List.getElem?_set_self hi,
      List.drop_set_of_lt _ _ (by omega)]
    simp [bitIndex, Nat.add_assoc, Nat.add_comm 1]

theorem bitIndexesLoop_total (sum64 : Sum64) (m : Nat) (v w : List Byte)
    (hs : List XXHash64) (i : Nat) (idxs idxs' : List Nat) (hlen : idxs.length = idxs'.length)
    (r : List Nat) (h : bitIndexesLoop sum64 m v i hs idxs = .ok r) :
    ∃ r', bitIndexesLoop sum64 m w i hs idxs' = .ok r' := by
  induction hs generalizing i idxs idxs' with
  | nil => exact ⟨idxs', rfl⟩
  | cons hash rest ih =>
    unfold bitIndexesLoop at h ⊢
    by_cases hm : m = 0
    · simp [hm] at h
    · by_cases hi : i < idxs.length
      · have hi' : i < idxs'.length := hlen ▸ hi
        simp only [hm, if_false, hi, if_true] at h
        simp only [hm, if_false, hi', if_true]
        exact ih (i + 1) _ _ (by simp [hlen]) h
      · simp [hm, hi] at h

theorem bitIndexesToCheck_congr (sum64 : Sum64) (bf bf' : BloomFilter) (v : List Byte)
    (hk : bf'.k = bf.k) (hm : bf'.m = bf.m) (hh : bf'.h = bf.h) :
    bitIndexesToCheck sum64 bf' v = bitIndexesToCheck sum64 bf v := by
  unfold bitIndexesToCheck
  rw [hk, hm, hh]

theorem bitIndexesToCheck_total (sum64 : Sum64) (bf : BloomFilter) (v w : List Byte)
    (r : List Nat) (h : bitIndexesToCheck sum64 bf v = .ok r) :
    ∃ r', bitIndexesToCheck sum64 bf w = .ok r' :=
  bitIndexesLoop_total sum64 bf.m v w bf.h 0 _ _ rfl r h

theorem bitIndex_lt (sum64 : Sum64) (m : Nat) (v : List Byte) (hash : XXHash64) (hm : 0 < m) :
    bitIndex sum64 m v hash < m :=
  Nat.mod_lt _ hm

theorem bitIndexesToCheck_of_WF (sum64 : Sum64) (bf : BloomFilter) (v : List Byte)
    (hwf : bf.WF) :
    bitIndexesToCheck sum64 bf v = .ok (bf.h.map (bitIndex sum64 bf.m v)) := by
  obtain ⟨hh, -, hk⟩ := hwf
  unfold bitIndexesToCheck
  rcases Nat.eq_zero_or_pos bf.m with hm | hm
  · have hk0 := hk hm
    have hnil : bf.h = [] := List.length_eq_zero.1 (hh.trans hk0)
    rw [hnil, hk0]
    rfl
  · rw [bitIndexesLoop_ok sum64 bf.m v hm bf.h 0 _ (by simp [hh])]
    simp [hh]

theorem indexes_lt_of_WF (sum64 : Sum64) (bf : BloomFilter) (v : List Byte) (hwf : bf.WF) :
    ∀ i ∈ bf.h.map (bitIndex sum64 bf.m v), i < bf.a.size := by
  intro i hi
  obtain ⟨hash, hmem, rfl⟩ := List.mem_map.1 hi
  rcases Nat.eq_zero_or_pos bf.m with hm | hm
  · have hnil : bf.h = [] := List.length_eq_zero.1 (hwf.1.trans (hwf.2.2 hm))
    rw [hnil] at hmem
    cases hmem
  · rw [hwf.2.1]
    exact bitIndex_lt sum64 bf.m v hash hm

/-! ## `Add` and `Contains` -/

theorem Add_ok (sum64 : Sum64) (bf : BloomFilter) (v : List Byte)
    (r : BloomFilter × Option Error) (h : Add sum64 bf v = .ok r) :
    ∃ idxs, bitIndexesToCheck sum64 bf v = .ok idxs ∧
      r = (⟨bf.k, bf.n, bf.m, (addLoop bf.a idxs).1, bf.h⟩, (addLoop bf.a idxs).2) := by
  unfold Add at h
  split at h
  · cases h
  · rename_i idxs hidx
    injection h with h
    exact ⟨idxs, hidx, h.symm⟩

theorem Add_of_indexes (sum64 : Sum64) (bf : BloomFilter) (v : List Byte) (idxs : List Nat)
    (h : bitIndexesToCheck sum64 bf v = .ok idxs) :
    Add sum64 bf v =
      .ok (⟨bf.k, bf.n, bf.m, (addLoop bf.a idxs).1, bf.h⟩, (addLoop bf.a idxs).2) := by
  unfold Add
  rw [h]

theorem Contains_of_indexes (sum64 : Sum64) (bf : BloomFilter) (v : List Byte)
    (idxs : List Nat) (h : bitIndexesToCheck sum64 bf v = .ok idxs) :
    Contains sum64 bf v = .ok (containsLoop bf.a idxs) := by
  unfold Contains
  rw [h]

theorem Add_of_WF (sum64 : Sum64) (bf : BloomFilter) (v : List Byte) (hwf : bf.WF) :
    Add sum64 bf v =
      .ok (⟨bf.k, bf.n, bf.m, (addLoop bf.a (bf.h.map (bitIndex sum64 bf.m v))).1, bf.h⟩,
        none) := by
  rw [Add_of_indexes sum64 bf v _ (bitIndexesToCheck_of_WF sum64 bf v hwf),
    (addLoop_of_lt bf.a _ (indexes_lt_of_WF sum64 bf v hwf)).1]

theorem WF_of_Add (sum64 : Sum64) (bf : BloomFilter) (v : List Byte)
    (r : BloomFilter × Option Error) (hwf : bf.WF) (h : Add sum64 bf v = .ok r) : r.1.WF := by
  obtain ⟨idxs, -, rfl⟩ := Add_ok sum64 bf v r h
  exact ⟨hwf.1, (addLoop_size _ _).trans hwf.2.1, hwf.2.2⟩

theorem AddAll_keeps (sum64 : Sum64) (bf0 : BloomFilter) (v : List Byte) (idxs : List Nat)
    (h0 : bitIndexesToCheck sum64 bf0 v = .ok idxs) (ws : List (List Byte)) (bf : BloomFilter)
    (hk : bf.k = bf0.k) (hm : bf.m = bf0.m) (hh : bf.h = bf0.h)
    (hset : ∀ i ∈ idxs, bf.a.isSet i = true) :
    ∃ bf2, AddAll sum64 bf ws = .ok bf2 ∧ bf2.k = bf0.k ∧ bf2.m = bf0.m ∧ bf2.h = bf0.h ∧
      ∀ i ∈ idxs, bf2.a.isSet i = true := by
  induction ws generalizing bf with
  | nil => exact ⟨bf, rfl, hk, hm, hh, hset⟩
  | cons w ws ih =>
    have hv : bitIndexesToCheck sum64 bf v = .ok idxs := by
      rw [bitIndexesToCheck_congr sum64 bf0 bf v hk hm hh, h0]
    obtain ⟨idxw, hw⟩ := bitIndexesToCheck_total sum64 bf v w idxs hv
    unfold AddAll
    rw [Add_of_indexes sum64 bf w idxw hw]
    exact ih _ hk hm hh (fun i hi => addLoop_mono _ _ _ (hset i hi))

theorem containsLoop_true (a : BitArray) (idxs : List Nat)
    (hset : ∀ i ∈ idxs, a.isSet i = true) : containsLoop a idxs = (true, none) := by
  rw [containsLoop_of_lt a idxs (fun i hi => isSet_lt_size (hset i hi))]
  have : idxs.all a.isSet = true := List.all_eq_true.2 hset
  rw [this]

theorem step_mono (sum64 : Sum64) (bf : BloomFilter) (op : Op) (j : Nat)
    (hj : bf.a.isSet j = true) : (step sum64 bf op).a.isSet j = true := by
  cases op with
  | contains v => exact hj
  | add v =>
    show (match Add sum64 bf v with
      | .ok r => r.1
      | .error _ => bf).a.isSet j = true
    cases h : Add sum64 bf v with
    | error e => exact hj
    | ok r =>
      obtain ⟨idxs, -, rfl⟩ := Add_ok sum64 bf v r h
      exact addLoop_mono _ _ _ hj

theorem run_mono (sum64 : Sum64) (bf : BloomFilter) (ops : List Op) (j : Nat)
    (hj : bf.a.isSet j = true) : (run sum64 bf ops).a.isSet j = true := by
  induction ops generalizing bf with
  | nil => exact hj
  | cons op ops ih => exact ih _ (step_mono sum64 bf op j hj)

/-! ## Sizing -/

theorem optimalK_zero (n : Nat) : optimalK n 0 = 0 := by
  simp [optimalK, uint64OfFloat]

theorem optimalM_one (n : Nat) : optimalM n 1 = 0 := by
  simp [optimalM, uint64OfFloat]

theorem log_ten_gt : 289 * Real.log 2 < 87 * Real.log 10 := by
  have h : Real.log ((2 : ℝ) ^ 289) < Real.log ((10 : ℝ) ^ 87) :=
    Real.log_lt_log (by positivity) (by norm_num)
  rw [Real.log_pow, Real.log_pow] at h
  exact_mod_cast h

theorem log_ten_lt : 59 * Real.log 10 < 196 * Real.log 2 := by
  have h : Real.log ((10 : ℝ) ^ 59) < Real.log ((2 : ℝ) ^ 196) :=
    Real.log_lt_log (by positivity) (by norm_num)
  rw [Real.log_pow, Real.log_pow] at h
  exact_mod_cast h

theorem optimalM_1000 : optimalM 1000 (1 / 10) = 4793 := by
  have hlo := Real.log_two_gt_d9
  have hhi := Real.log_two_lt_d9
  have h1 := log_ten_gt
  have h2 := log_ten_lt
  have hl2 : (0 : ℝ) < Real.log 2 := Real.log_pos (by norm_num)
  have hsq : (0 : ℝ) < Real.log 2 * Real.log 2 := mul_pos hl2 hl2
  have hc : ⌈-((1000 : ℕ) : ℝ) * Real.log (1 / 10) / (Real.log 2 * Real.log 2)⌉ = 4793 := by
    rw [Int.ceil_eq_iff, one_div, Real.log_inv]
    constructor
    · rw [lt_div_iff₀ hsq]
      push_cast
      nlinarith
    · rw [div_le_iff₀ hsq]
      push_cast
      nlinarith
  unfold optimalM uint64OfFloat
  rw [hc]
  rfl

theorem optimalK_1000 : optimalK 1000 4793 = 4 := by
  have hlo := Real.log_two_gt_d9
  have hhi := Real.log_two_lt_d9
  have hc : ⌈((4793 : ℕ) : ℝ) * Real.log 2 / ((1000 : ℕ) : ℝ)⌉ = 4 := by
    rw [Int.ceil_eq_iff]
    constructor
    · rw [lt_div_iff₀ (by norm_num)]
      push_cast
      linarith
    · rw [div_le_iff₀ (by norm_num)]
      push_cast
      linarith
  unfold optimalK uint64OfFloat
  rw [hc]
  rfl

/-! ## The constructor -/

theorem CreateBloomFilter_ok (env : Env) (n : Nat) (p : ℝ) (hn : 0 < n) (hp : 0 < p)
    (ha : env.allocFails (optimalM n p) = false) :
    CreateBloomFilter env n p =
      (⟨optimalK n (optimalM n p), n, optimalM n p, ⟨List.replicate (optimalM n p) false⟩,
        (List.range (optimalK n (optimalM n p))).map (fun i => NewS64 (env.rand i % 2 ^ 64))⟩,
        none) := by
  unfold CreateBloomFilter
  rw [if_neg (Nat.ne_of_gt hn), if_neg (not_le.2 hp)]
  simp [NewBitArray, ha]

theorem CreateBloomFilter_cases (env : Env) (n : Nat) (p : ℝ) :
    (CreateBloomFilter env n p).1 = BloomFilter.zero ∨
      (CreateBloomFilter env n p).1 =
        ⟨optimalK n (optimalM n p), n, optimalM n p, ⟨List.replicate (optimalM n p) false⟩,
        (List.range (optimalK n (optimalM n p))).map (fun i => NewS64 (env.rand i % 2 ^ 64))⟩ := by
  unfold CreateBloomFilter
  by_cases hn : n = 0
  · simp [hn]
  · by_cases hp : p ≤ 0
    · simp [hn, hp]
    · rw [if_neg hn, if_neg hp]
      cases ha : env.allocFails (optimalM n p)
      · right
        simp [NewBitArray, ha]
      · left
        simp [NewBitArray, ha]

theorem WF_zero : BloomFilter.zero.WF := ⟨rfl, rfl, fun _ => rfl⟩

theorem WF_CreateBloomFilter (env : Env) (n : Nat) (p : ℝ) : (CreateBloomFilter env n p).1.WF := by
  rcases CreateBloomFilter_cases env n p with h | h
  · rw [h]
    exact WF_zero
  · rw [h]
    refine ⟨by simp, by simp [BitArray.size], fun hm => ?_⟩
    simp only at hm ⊢
    rw [hm]
    exact optimalK_zero n

theorem WF_of_Reachable (sum64 : Sum64) (bf : BloomFilter) (h : Reachable sum64 bf) : bf.WF := by
  induction h with
  | create env n p => exact WF_CreateBloomFilter env n p
  | add v r _ hadd ih => exact WF_of_Add sum64 _ v r ih hadd

/-! ## What the index derivation reads -/

theorem littleEndianUint64_append (xs ys : List Byte) :
    littleEndianUint64 (xs ++ ys) =
      littleEndianUint64 xs + 256 ^ xs.length * littleEndianUint64 ys := by
  induction xs with
  | nil => simp [littleEndianUint64]
  | cons b xs ih =>
    rw [List.cons_append]
    show b.val + 256 * littleEndianUint64 (xs ++ ys) = _
    rw [ih, List.length_cons]
    simp only [littleEndianUint64]
    ring

theorem digestBytes_length (s : Nat) : (digestBytes s).length = 8 := rfl

theorem binaryRead_Sum (sum64 : Sum64) (hash : XXHash64) (v : List Byte) :
    binaryRead (hash.Sum sum64 v) =
      littleEndianUint64 (v.take 8) + 256 ^ (v.take 8).length *
        littleEndianUint64 ((digestBytes (sum64 hash.seed hash.written)).take (8 - v.length)) := by
  unfold binaryRead XXHash64.Sum
  have hlen : ¬ (v ++ digestBytes (sum64 hash.seed hash.written)).length < 8 := by
    simp [digestBytes_length]
  rw [if_neg hlen, List.take_append_eq_append_take, littleEndianUint64_append]

theorem bitIndex_short (sum64 : Sum64) (m : Nat) (v : List Byte) (hash : XXHash64)
    (hv : v.length ≤ 8) :
    bitIndex sum64 m v hash = (littleEndianUint64 v + digestPart sum64 v.length hash) % m := by
  unfold bitIndex digestPart
  rw [binaryRead_Sum, List.take_of_length_le hv]

theorem shift_not_closed (m : Nat) (hm : m.Prime) (xs : List Nat) (hne : xs ≠ [])
    (hlen : xs.length < m) (a b : Nat) (hab : a % m ≠ b % m) :
    ∃ x ∈ xs, ∀ y ∈ xs, (b + x) % m ≠ (a + y) % m := by
  by_contra hcon
  push_neg at hcon
  haveI : Fact m.Prime := ⟨hm⟩
  let S : Finset (ZMod m) := (xs.map (Nat.cast : ℕ → ZMod m)).toFinset
  let δ : ZMod m := (b : ZMod m) - (a : ZMod m)
  have hS : ∀ s ∈ S, s + δ ∈ S := by
    intro s hs
    obtain ⟨x, hx, rfl⟩ := List.mem_map.1 (List.mem_toFinset.1 hs)
    obtain ⟨y, hy, hxy⟩ := hcon x hx
    have hz : ((b + x : ℕ) : ZMod m) = ((a + y : ℕ) : ZMod m) :=
      (ZMod.natCast_eq_natCast_iff' _ _ _).2 hxy
    push_cast at hz
    have : (x : ZMod m) + δ = (y : ZMod m) := by
      show (x : ZMod m) + ((b : ZMod m) - (a : ZMod m)) = (y : ZMod m)
      linear_combination hz
    rw [this]
    exact List.mem_toFinset.2 (List.mem_map.2 ⟨y, hy, rfl⟩)
  have himg : S.image (fun s => s + δ) = S := by
    apply Finset.eq_of_subset_of_card_le (Finset.image_subset_iff.2 hS)
    rw [Finset.card_image_of_injective _ (add_left_injective δ)]
  have hsum : ∑ s ∈ S, (s + δ) = ∑ s ∈ S, s := by
    conv_rhs => rw [← himg]
    rw [Finset.sum_image (fun _ _ _ _ h => add_right_cancel h)]
  rw [Finset.sum_add_distrib, Finset.sum_const, nsmul_eq_mul] at hsum
  have hzero : (S.card : ZMod m) * δ = 0 := by
    linear_combination hsum
  have hcard_pos : 0 < S.card := by
    obtain ⟨x, hx⟩ := List.exists_mem_of_ne_nil xs hne
    exact Finset.card_pos.2 ⟨(x : ZMod m), List.mem_toFinset.2 (List.mem_map.2 ⟨x, hx, rfl⟩)⟩
  have hcard_le : S.card ≤ xs.length := by
    have := List.toFinset_card_le (xs.map (Nat.cast : ℕ → ZMod m))
    simpa using this
  rcases mul_eq_zero.1 hzero with h0 | h0
  · have hdvd : m ∣ S.card := (ZMod.natCast_zmod_eq_zero_iff_dvd _ _).1 h0
    have := Nat.le_of_dvd hcard_pos hdvd
    omega
  · apply hab
    have hba : (b : ZMod m) = (a : ZMod m) := sub_eq_zero.1 h0
    exact ((ZMod.natCast_eq_natCast_iff' _ _ _).1 hba).symm

theorem isSet_replicate (n j : Nat) : (BitArray.mk (List.replicate n false)).isSet j = false := by
  unfold BitArray.isSet
  rw [List.getD_eq_getElem?_getD]
  by_cases hj : j < n
  · simp [List.getElem?_replicate, hj]
  · simp [List.getElem?_replicate, hj]

theorem Add_idem (sum64 : Sum64) (bf : BloomFilter) (v : List Byte)
    (r : BloomFilter × Option Error) (h : Add sum64 bf v = .ok r) : Add sum64 r.1 v = .ok r := by
  obtain ⟨idxs, hidx, rfl⟩ := Add_ok sum64 bf v r h
  have hidx' : bitIndexesToCheck sum64
      ⟨bf.k, bf.n, bf.m, (addLoop bf.a idxs).1, bf.h⟩ v = .ok idxs :=
    (bitIndexesToCheck_congr sum64 bf _ v rfl rfl rfl).trans hidx
  rw [Add_of_indexes sum64 _ v idxs hidx']
  simp only [addLoop_idem]

theorem Contains_after_Add (sum64 : Sum64) (bf : BloomFilter) (v w : List Byte) (hwf : bf.WF) :
    ∃ bf1, Add sum64 bf v = .ok (bf1, none) ∧ bf1.WF ∧
      Contains sum64 bf1 w = .ok ((bf.h.map (bitIndex sum64 bf.m w)).all
        (fun i => bf.a.isSet i || decide (i ∈ bf.h.map (bitIndex sum64 bf.m v))), none) := by
  have hadd := Add_of_WF sum64 bf v hwf
  have hwf1 := WF_of_Add sum64 bf v _ hwf hadd
  refine ⟨_, hadd, hwf1, ?_⟩
  rw [Contains_of_indexes sum64 _ w _ (bitIndexesToCheck_of_WF sum64 _ w hwf1),
    containsLoop_of_lt _ _ (indexes_lt_of_WF sum64 _ w hwf1)]
  have hset := funext (addLoop_of_lt bf.a _ (indexes_lt_of_WF sum64 bf v hwf)).2
  show Except.ok (List.all _ (addLoop bf.a (bf.h.map (bitIndex sum64 bf.m v))).1.isSet, none) = _
  rw [hset]

/-! ## Membership -/

/-- C1. No false negatives: for every filter (in particular every filter returned by
`CreateBloomFilter`) and every byte sequence `v`, once `Add(v)` has returned nil,
`Contains(v)` returns `(true, nil)`, and it still does after any finite sequence `ws` of
further `Add` calls (none of which panics), whatever these calls return. -/
theorem no_false_negatives (sum64 : Sum64) (bf : BloomFilter) (v : List Byte)
    (ws : List (List Byte)) (bf1 : BloomFilter) (hadd : Add sum64 bf v = .ok (bf1, none)) :
    ∃ bf2, AddAll sum64 bf1 ws = .ok bf2 ∧ Contains sum64 bf2 v = .ok (true, none) := by
  obtain ⟨idxs, hidx, hr⟩ := Add_ok sum64 bf v _ hadd
  have hbf1 : bf1 = ⟨bf.k, bf.n, bf.m, (addLoop bf.a idxs).1, bf.h⟩ := congrArg Prod.fst hr
  have hnone : (addLoop bf.a idxs).2 = none := (congrArg Prod.snd hr).symm
  have hset : ∀ i ∈ idxs, bf1.a.isSet i = true := by
    intro i hi
    rw [hbf1, (addLoop_of_lt bf.a idxs (addLoop_none bf.a idxs hnone)).2 i]
    simp [hi]
  obtain ⟨bf2, hall, hk, hm, hh, hset2⟩ :=
    AddAll_keeps sum64 bf v idxs hidx ws bf1 (by rw [hbf1]) (by rw [hbf1]) (by rw [hbf1]) hset
  refine ⟨bf2, hall, ?_⟩
  rw [Contains_of_indexes sum64 bf2 v idxs
    ((bitIndexesToCheck_congr sum64 bf bf2 v hk hm hh).trans hidx), containsLoop_true _ _ hset2]

/-- Witness of C1 on the small filter with the digest function of xxHash64. -/
theorem no_false_negatives_witness :
    Add xxh64 smallFilter v1 = .ok (smallFilterAdded, none) ∧
      ∃ bf2, AddAll xxh64 smallFilterAdded [v2, v8] = .ok bf2 ∧
        Contains xxh64 bf2 v1 = .ok (true, none) :=
  ⟨rfl, no_false_negatives xxh64 smallFilter v1 [v2, v8] smallFilterAdded rfl⟩

/-- C8. `Add` is idempotent: on every filter a client can hold, `Add(v)` returns nil and
leaves a filter on which a second `Add(v)` returns nil and leaves the same filter, so the
bit array after `Add(v); Add(v)` is the bit array after one `Add(v)`. -/
theorem add_idempotent (sum64 : Sum64) (bf : BloomFilter) (v : List Byte)
    (hr : Reachable sum64 bf) :
    ∃ bf1, Add sum64 bf v = .ok (bf1, none) ∧ Add sum64 bf1 v = .ok (bf1, none) := by
  have hadd := Add_of_WF sum64 bf v (WF_of_Reachable sum64 bf hr)
  exact ⟨_, hadd, Add_idem sum64 bf v _ hadd⟩

/-- Witness of C8 on the filter returned by `CreateBloomFilter(1000, 0.1)`. -/
theorem add_idempotent_witness :
    ∃ bf1, Add xxh64 (CreateBloomFilter testEnv 1000 (1 / 10)).1 v1 = .ok (bf1, none) ∧
      Add xxh64 bf1 v1 = .ok (bf1, none) :=
  add_idempotent xxh64 (CreateBloomFilter testEnv 1000 (1 / 10)).1 v1
    (Reachable.create testEnv 1000 (1 / 10))

/-- C9. Bits are never cleared: a position that is set stays set after `Add(v)` for any
`v`, whether `Add` returns nil or an error, after `Contains(v)`, and hence after any
sequence of operations. -/
theorem bits_never_cleared (sum64 : Sum64) (bf : BloomFilter) (j : Nat)
    (hj : bf.a.isSet j = true) :
    (∀ v r, Add sum64 bf v = .ok r → r.1.a.isSet j = true) ∧
      (∀ op, (step sum64 bf op).a.isSet j = true) ∧
      ∀ ops, (run sum64 bf ops).a.isSet j = true := by
  refine ⟨fun v r h => ?_, fun op => step_mono sum64 bf op j hj,
    fun ops => run_mono sum64 bf ops j hj⟩
  obtain ⟨idxs, -, rfl⟩ := Add_ok sum64 bf v r h
  exact addLoop_mono _ _ _ hj

/-- Witness of C9: position 5 of the small filter after `Add(v1)`. -/
theorem bits_never_cleared_witness :
    smallFilterAdded.a.isSet 5 = true ∧
      (∀ v r, Add xxh64 smallFilterAdded v = .ok r → r.1.a.isSet 5 = true) ∧
      (∀ op, (step xxh64 smallFilterAdded op).a.isSet 5 = true) ∧
      ∀ ops, (run xxh64 smallFilterAdded ops).a.isSet 5 = true :=
  ⟨by decide, bits_never_cleared xxh64 smallFilterAdded 5 (by decide)⟩

/-- C10. `Contains` decides the conjunction of the `k` bits: with `idxs` the positions
computed for `v`, when every position is in range `Contains(v)` returns
`(b, nil)` with `b` true exactly when every position is set; and whenever `Contains(v)`
returns a nil error (no read it performed failed) its answer is true exactly when every
position is set, so the short-circuit does not change the result. -/
theorem contains_iff_all_set (sum64 : Sum64) (bf : BloomFilter) (v : List Byte)
    (idxs : List Nat) (hidx : bitIndexesToCheck sum64 bf v = .ok idxs) :
    ((∀ i ∈ idxs, i < bf.a.size) →
        Contains sum64 bf v = .ok (idxs.all bf.a.isSet, none)) ∧
      ∀ b, Contains sum64 bf v = .ok (b, none) →
        (b = true ↔ ∀ i ∈ idxs, bf.a.isSet i = true) := by
  rw [Contains_of_indexes sum64 bf v idxs hidx]
  refine ⟨fun hlt => by rw [containsLoop_of_lt _ _ hlt], fun b hb => ?_⟩
  have hb' : containsLoop bf.a idxs = (b, none) := by
    injection hb
  rw [containsLoop_none _ _ b hb', List.all_eq_true]

/-- Witness of C10: the small filter after `Add(v1)`, queried with `v1` and with `v2`. -/
theorem contains_iff_all_set_witness :
    bitIndexesToCheck xxh64 smallFilterAdded v2 = .ok [3, 5] ∧
      (((∀ i ∈ [3, 5], i < smallFilterAdded.a.size) →
        Contains xxh64 smallFilterAdded v2 = .ok (([3, 5] : List Nat).all
          smallFilterAdded.a.isSet, none)) ∧
      ∀ b, Contains xxh64 smallFilterAdded v2 = .ok (b, none) →
        (b = true ↔ ∀ i ∈ [3, 5], smallFilterAdded.a.isSet i = true)) :=
  ⟨rfl, contains_iff_all_set xxh64 smallFilterAdded v2 [3, 5] rfl⟩

/-! ## Index derivation against the hash of the value -/

theorem bitIndex_long (sum64 : Sum64) (m : Nat) (v : List Byte) (hash : XXHash64)
    (hv : 8 ≤ v.length) : bitIndex sum64 m v hash = littleEndianUint64 (v.take 8) % m := by
  unfold bitIndex
  rw [binaryRead_Sum, Nat.sub_eq_zero_of_le hv]
  simp [littleEndianUint64]

theorem WF_testFilter : testFilter.WF :=
  ⟨rfl, List.length_replicate 4793 false, fun h => absurd h (by decide)⟩

/-- C2. Evaluation of `bitIndexesToCheck` on the filter of the repository's test and the
eight-byte value `[1, ..., 8]`: whatever the digest function, each of the four positions
is the little-endian integer of the eight bytes modulo `m`, 4215, while the xxHash64
digests of the value under the four seeds, reduced modulo `m`, are 2619, 2984, 2831 and
1941. The position is not the hash of the value. -/
theorem bitIndexesToCheck_not_hash_of_value :
    (∀ sum64 : Sum64, bitIndexesToCheck sum64 testFilter v8 = .ok [4215, 4215, 4215, 4215]) ∧
      testFilter.h.map (fun hash => xxh64 hash.seed v8 % testFilter.m) =
        [2619, 2984, 2831, 1941] :=
  ⟨fun sum64 => by
    rw [bitIndexesToCheck_of_WF sum64 testFilter v8 WF_testFilter]
    simp only [testFilter, List.map, bitIndex_long sum64 4793 v8 _ (by decide)]
    rfl, by decide⟩

theorem test_pair_not_subset (sum64 : Sum64) (hs : List XXHash64) (hne : hs ≠ [])
    (hlen : hs.length < 4793) :
    (hs.map (bitIndex sum64 4793 v2)).all
      (fun i => decide (i ∈ hs.map (bitIndex sum64 4793 v1))) = false := by
  have hne' : hs.map (digestPart sum64 5) ≠ [] := by
    simpa using hne
  have hlen' : (hs.map (digestPart sum64 5)).length < 4793 := by
    simpa using hlen
  obtain ⟨x, hx, hxy⟩ := shift_not_closed 4793 (by norm_num) _ hne' hlen'
    (littleEndianUint64 v1) (littleEndianUint64 v2) (by decide)
  obtain ⟨hash0, hmem0, rfl⟩ := List.mem_map.1 hx
  rw [List.all_eq_false]
  refine ⟨bitIndex sum64 4793 v2 hash0, List.mem_map.2 ⟨hash0, hmem0, rfl⟩, ?_⟩
  rw [decide_eq_true_eq]
  intro hin
  obtain ⟨hash1, hmem1, heq⟩ := List.mem_map.1 hin
  have e1 : bitIndex sum64 4793 v1 hash1 =
      (littleEndianUint64 v1 + digestPart sum64 5 hash1) % 4793 :=
    bitIndex_short sum64 4793 v1 hash1 (by decide)
  have e2 : bitIndex sum64 4793 v2 hash0 =
      (littleEndianUint64 v2 + digestPart sum64 5 hash0) % 4793 :=
    bitIndex_short sum64 4793 v2 hash0 (by decide)
  rw [e1, e2] at heq
  exact hxy _ (List.mem_map.2 ⟨hash1, hmem1, rfl⟩) heq.symm

/-- C3. The test pair: a filter created with `n = 1000` and `p = 0.1` has `m = 4793` and
`k = 4`, and for every digest function and all seeds, `Add([1,2,3,4,5])` returns nil and
afterwards `Contains([11,22,33,44,55])` returns `(false, nil)`. -/
theorem negative_membership_test_pair (sum64 : Sum64) (env : Env)
    (ha : env.allocFails 4793 = false) :
    ∃ bf bf1, CreateBloomFilter env 1000 (1 / 10) = (bf, none) ∧ bf.m = 4793 ∧ bf.k = 4 ∧
      Add sum64 bf v1 = .ok (bf1, none) ∧ Contains sum64 bf1 v2 = .ok (false, none) := by
  have hc := CreateBloomFilter_ok env 1000 (1 / 10) (by decide) (by norm_num)
    (by rw [optimalM_1000]; exact ha)
  rw [optimalM_1000, optimalK_1000] at hc
  have hwf : (CreateBloomFilter env 1000 (1 / 10)).1.WF := WF_CreateBloomFilter env 1000 (1 / 10)
  rw [hc] at hwf
  obtain ⟨bf1, hadd, -, hcont⟩ := Contains_after_Add sum64 _ v1 v2 hwf
  refine ⟨_, bf1, hc, rfl, rfl, hadd, ?_⟩
  rw [hcont]
  simp only [isSet_replicate, Bool.false_or]
  rw [test_pair_not_subset sum64 _ (by simp [List.range_succ]) (by simp)]

/-- Witness of C3: allocations succeed, the seeds are 1, 2, 3, 4 and the digest function
is xxHash64. -/
theorem negative_membership_test_pair_witness :
    testEnv.allocFails 4793 = false ∧
      ∃ bf bf1, CreateBloomFilter testEnv 1000 (1 / 10) = (bf, none) ∧ bf.m = 4793 ∧
        bf.k = 4 ∧ Add xxh64 bf v1 = .ok (bf1, none) ∧
        Contains xxh64 bf1 v2 = .ok (false, none) :=
  ⟨rfl, negative_membership_test_pair xxh64 testEnv rfl⟩

/-! ## Validation and sizing in the constructor -/

/-- C4. `CreateBloomFilter(0, p)` fails for every `p`: it returns the zero-value filter
and an `InvalidArgumentError` whose parameter name is "n", whose offending value is 0 and
whose `Error()` text is the invalid-n message; the check of `n` comes before that of `p`. -/
theorem create_rejects_zero_n (env : Env) (p : ℝ) :
    ∃ e : InvalidArgumentError,
      CreateBloomFilter env 0 p = (BloomFilter.zero, some (.invalidArgument e)) ∧
      e.name = "n" ∧ e.v = .uint64 0 ∧ e.Error = invalidNErrorMessage ∧
      e.Error = "Paramater [n] should be greater than zero." :=
  ⟨NewInvalidArgumentError invalidNErrorMessage "n" (.uint64 0), by simp [CreateBloomFilter],
    rfl, rfl, rfl, rfl⟩

/-- C5. For `n > 0`: when `p <= 0` the constructor returns the zero-value filter and an
`InvalidArgumentError` whose parameter name is "p" and whose offending value is `p`; and
it returns an `InvalidArgumentError` only when `p <= 0`. -/
theorem create_rejects_nonpositive_p (env : Env) (n : Nat) (p : ℝ) (hn : 0 < n) :
    (p ≤ 0 → ∃ e : InvalidArgumentError,
      CreateBloomFilter env n p = (BloomFilter.zero, some (.invalidArgument e)) ∧
      e.name = "p" ∧ e.v = .float64 p ∧ e.Error = invalidPErrorMessage) ∧
    (∀ e : InvalidArgumentError,
      (CreateBloomFilter env n p).2 = some (.invalidArgument e) → p ≤ 0) := by
  have hn0 : n ≠ 0 := Nat.ne_of_gt hn
  constructor
  · intro hp
    exact ⟨NewInvalidArgumentError invalidPErrorMessage "p" (.float64 p),
      by simp [CreateBloomFilter, hn0, hp], rfl, rfl, rfl⟩
  · intro e he
    by_contra hp
    unfold CreateBloomFilter at he
    rw [if_neg hn0, if_neg hp] at he
    cases ha : env.allocFails (optimalM n p)
    · simp [NewBitArray, ha] at he
    · simp [NewBitArray, ha, WrapError] at he

/-- Witness of C5: the two calls of the repository's test, `p = -0.1` then `p = 0`. -/
theorem create_rejects_nonpositive_p_witness :
    (∃ e : InvalidArgumentError,
      CreateBloomFilter testEnv 1000 (-1 / 10) = (BloomFilter.zero, some (.invalidArgument e)) ∧
      e.name = "p" ∧ e.v = .float64 (-1 / 10) ∧ e.Error = invalidPErrorMessage) ∧
    (∀ e : InvalidArgumentError,
      (CreateBloomFilter testEnv 1000 0).2 = some (.invalidArgument e) → (0 : ℝ) ≤ 0) :=
  ⟨(create_rejects_nonpositive_p testEnv 1000 (-1 / 10) (by decide)).1 (by norm_num),
    (create_rejects_nonpositive_p testEnv 1000 0 (by decide)).2⟩

/-- C7, counterexample. The constructor accepts `n = 1`, `p = 1` (both checks pass and
it returns a nil error) and the derived sizes are `m = 0` and `k = 0`. -/
theorem sizes_zero_at_p_one :
    (0 : ℕ) < 1 ∧ (0 : ℝ) < 1 ∧
      CreateBloomFilter testEnv 1 1 = (⟨0, 1, 0, ⟨[]⟩, []⟩, none) ∧
      ¬ (1 ≤ optimalM 1 1 ∧ 1 ≤ optimalK 1 (optimalM 1 1)) := by
  refine ⟨by decide, by norm_num, ?_, ?_⟩
  · rw [CreateBloomFilter_ok testEnv 1 1 (by decide) (by norm_num) rfl, optimalM_one,
      optimalK_zero]
    rfl
  · rw [optimalM_one]
    omega

/-! ## Well-formed filters: positions, errors, frame -/

theorem bitIndexesToCheck_of_length (sum64 : Sum64) (bf : BloomFilter) (v : List Byte)
    (hh : bf.h.length = bf.k) (hm : 1 ≤ bf.m) :
    bitIndexesToCheck sum64 bf v = .ok (bf.h.map (bitIndex sum64 bf.m v)) := by
  unfold bitIndexesToCheck
  rw [bitIndexesLoop_ok sum64 bf.m v hm bf.h 0 _ (by simp [hh])]
  simp [hh]

theorem Contains_of_WF (sum64 : Sum64) (bf : BloomFilter) (v : List Byte) (hwf : bf.WF) :
    Contains sum64 bf v =
      .ok ((bf.h.map (bitIndex sum64 bf.m v)).all bf.a.isSet, none) := by
  rw [Contains_of_indexes sum64 bf v _ (bitIndexesToCheck_of_WF sum64 bf v hwf),
    containsLoop_of_lt _ _ (indexes_lt_of_WF sum64 bf v hwf)]

theorem Contains_of_Add_nil (sum64 : Sum64) (bf bf1 : BloomFilter) (v w : List Byte)
    (hvw : bitIndexesToCheck sum64 bf w = bitIndexesToCheck sum64 bf v)
    (hadd : Add sum64 bf v = .ok (bf1, none)) : Contains sum64 bf1 w = .ok (true, none) := by
  obtain ⟨idxs, hidx, hr⟩ := Add_ok sum64 bf v _ hadd
  have hbf1 : bf1 = ⟨bf.k, bf.n, bf.m, (addLoop bf.a idxs).1, bf.h⟩ := congrArg Prod.fst hr
  have hnone : (addLoop bf.a idxs).2 = none := (congrArg Prod.snd hr).symm
  have hset : ∀ i ∈ idxs, bf1.a.isSet i = true := by
    intro i hi
    rw [hbf1, (addLoop_of_lt bf.a idxs (addLoop_none bf.a idxs hnone)).2 i]
    simp [hi]
  have hw : bitIndexesToCheck sum64 bf1 w = .ok idxs := by
    rw [bitIndexesToCheck_congr sum64 bf bf1 w (by rw [hbf1]) (by rw [hbf1]) (by rw [hbf1]),
      hvw, hidx]
  rw [Contains_of_indexes sum64 bf1 w idxs hw, containsLoop_true _ _ hset]

theorem addLoop_frame (a : BitArray) (idxs : List Nat) (j : Nat) (hj : j ∉ idxs) :
    (addLoop a idxs).1.isSet j = a.isSet j := by
  induction idxs generalizing a with
  | nil => rfl
  | cons i rest ih =>
    have hji : ¬ i = j := fun h => hj (h ▸ List.mem_cons_self _ _)
    have hrest : j ∉ rest := fun h => hj (List.mem_cons_of_mem _ h)
    unfold addLoop
    split
    · rfl
    · rename_i a' hto
      rw [ih a' hrest, (TurnOn_ok hto).2.2 j]
      simp [hji]

/-- C11. The error branches of `Add` and `Contains` are unreachable on a constructed
filter: on every filter a client can hold (returned by `CreateBloomFilter`, then any
`Add`s) and for every byte sequence `v`, every computed position is in range for the bit
array, `Add(v)` returns nil and `Contains(v)` returns a nil error. -/
theorem error_branches_unreachable (sum64 : Sum64) (bf : BloomFilter) (v : List Byte)
    (hr : Reachable sum64 bf) :
    (∃ idxs, bitIndexesToCheck sum64 bf v = .ok idxs ∧ ∀ i ∈ idxs, i < bf.a.size) ∧
      (∃ bf1, Add sum64 bf v = .ok (bf1, none)) ∧
      ∃ b, Contains sum64 bf v = .ok (b, none) := by
  have hwf := WF_of_Reachable sum64 bf hr
  exact ⟨⟨_, bitIndexesToCheck_of_WF sum64 bf v hwf, indexes_lt_of_WF sum64 bf v hwf⟩,
    ⟨_, Add_of_WF sum64 bf v hwf⟩, ⟨_, Contains_of_WF sum64 bf v hwf⟩⟩

/-- Witness of C11 on the filter returned by `CreateBloomFilter(1000, 0.1)`. -/
theorem error_branches_unreachable_witness :
    (∃ idxs, bitIndexesToCheck xxh64 (CreateBloomFilter testEnv 1000 (1 / 10)).1 v1 = .ok idxs ∧
        ∀ i ∈ idxs, i < (CreateBloomFilter testEnv 1000 (1 / 10)).1.a.size) ∧
      (∃ bf1, Add xxh64 (CreateBloomFilter testEnv 1000 (1 / 10)).1 v1 = .ok (bf1, none)) ∧
      ∃ b, Contains xxh64 (CreateBloomFilter testEnv 1000 (1 / 10)).1 v1 = .ok (b, none) :=
  error_branches_unreachable xxh64 (CreateBloomFilter testEnv 1000 (1 / 10)).1 v1
    (Reachable.create testEnv 1000 (1 / 10))

/-- C12. Collision on the leading bytes: on a filter with `len(hashers) == k` and
`m >= 1`, for every byte sequence of length at least 8 each of the `k` positions is the
little-endian integer of its first 8 bytes modulo `m`, whatever the seeds, the hasher and
the later bytes; so for `v1`, `v2` of length at least 8 with the same first 8 bytes,
after `Add(v1)` returns nil `Contains(v2)` returns `(true, nil)`. -/
theorem leading_bytes_collision (sum64 : Sum64) (bf : BloomFilter)
    (hh : bf.h.length = bf.k) (hm : 1 ≤ bf.m) :
    (∀ v : List Byte, 8 ≤ v.length → bitIndexesToCheck sum64 bf v =
        .ok (List.replicate bf.k (littleEndianUint64 (v.take 8) % bf.m))) ∧
      ∀ (w1 w2 : List Byte) (bf1 : BloomFilter), 8 ≤ w1.length → 8 ≤ w2.length →
        w1.take 8 = w2.take 8 → Add sum64 bf w1 = .ok (bf1, none) →
        Contains sum64 bf1 w2 = .ok (true, none) := by
  have hpos : ∀ v : List Byte, 8 ≤ v.length → bitIndexesToCheck sum64 bf v =
      .ok (List.replicate bf.k (littleEndianUint64 (v.take 8) % bf.m)) := by
    intro v hv
    rw [bitIndexesToCheck_of_length sum64 bf v hh hm, ← hh]
    congr 1
    apply List.ext_getElem
    · simp
    · intro i h1 h2
      simp [bitIndex_long sum64 bf.m v _ hv]
  refine ⟨hpos, fun w1 w2 bf1 h1 h2 htake hadd => ?_⟩
  apply Contains_of_Add_nil sum64 bf bf1 w1 w2 _ hadd
  rw [hpos w1 h1, hpos w2 h2, htake]

/-- Witness of C12: the small filter, `v8` and the nine-byte value that extends it: both
positions of `v9` are 6, and after `Add(v8)` the filter answers true for `v9`. -/
theorem leading_bytes_collision_witness :
    bitIndexesToCheck xxh64 smallFilter v9 =
        .ok (List.replicate smallFilter.k (littleEndianUint64 (v9.take 8) % smallFilter.m)) ∧
      Add xxh64 smallFilter v8 =
        .ok (⟨2, 3, 7, ⟨[false, false, false, false, false, false, true]⟩,
          [NewS64 1, NewS64 2]⟩, none) ∧
      Contains xxh64 ⟨2, 3, 7, ⟨[false, false, false, false, false, false, true]⟩,
          [NewS64 1, NewS64 2]⟩ v9 = .ok (true, none) :=
  ⟨(leading_bytes_collision xxh64 smallFilter rfl (by decide)).1 v9 (by decide), rfl,
    (leading_bytes_collision xxh64 smallFilter rfl (by decide)).2 v8 v9 _ (by decide)
      (by decide) rfl rfl⟩

/-- C13. On a filter with `len(hashers) == k` and `m >= 1`, for every byte sequence `v`,
`bitIndexesToCheck(v)` returns (without panic) exactly `k` positions, the one of hasher
`i` at place `i`, each of them below `m`; nothing is removed from the sequence. -/
theorem bitIndexesToCheck_positions (sum64 : Sum64) (bf : BloomFilter) (v : List Byte)
    (hh : bf.h.length = bf.k) (hm : 1 ≤ bf.m) :
    ∃ idxs, bitIndexesToCheck sum64 bf v = .ok idxs ∧ idxs.length = bf.k ∧
      (∀ i ∈ idxs, i < bf.m) ∧ idxs = bf.h.map (bitIndex sum64 bf.m v) := by
  refine ⟨_, bitIndexesToCheck_of_length sum64 bf v hh hm, by simp [hh], ?_, rfl⟩
  intro i hi
  obtain ⟨hash, -, rfl⟩ := List.mem_map.1 hi
  exact bitIndex_lt sum64 bf.m v hash hm

/-- Witness of C13: the filter of the repository's test and the eight-byte value, whose
four positions are equal. -/
theorem bitIndexesToCheck_positions_witness :
    ∃ idxs, bitIndexesToCheck xxh64 testFilter v8 = .ok idxs ∧ idxs.length = testFilter.k ∧
      (∀ i ∈ idxs, i < testFilter.m) ∧ idxs = testFilter.h.map (bitIndex xxh64 testFilter.m v8) :=
  bitIndexesToCheck_positions xxh64 testFilter v8 rfl (by decide)

/-- C14. Frame of `Add` and `Contains`: a call `Add(v)` that does not panic leaves `k`,
`n`, `m` and the hashers unchanged (so `len(hashers) == k` is preserved), keeps the length
of the bit array (so it stays `m`), and leaves every bit whose position is not among the
positions computed for `v` at its previous value; `Contains(v)` leaves the filter as it
is. -/
theorem add_contains_frame (sum64 : Sum64) (bf : BloomFilter) (v : List Byte)
    (r : BloomFilter × Option Error) (hadd : Add sum64 bf v = .ok r) :
    r.1.k = bf.k ∧ r.1.n = bf.n ∧ r.1.m = bf.m ∧ r.1.h = bf.h ∧
      (bf.h.length = bf.k → r.1.h.length = r.1.k) ∧
      r.1.a.size = bf.a.size ∧ (bf.a.size = bf.m → r.1.a.size = r.1.m) ∧
      (∃ idxs, bitIndexesToCheck sum64 bf v = .ok idxs ∧
        ∀ j, j ∉ idxs → r.1.a.isSet j = bf.a.isSet j) ∧
      ∀ w, step sum64 bf (.contains w) = bf := by
  obtain ⟨idxs, hidx, rfl⟩ := Add_ok sum64 bf v r hadd
  refine ⟨rfl, rfl, rfl, rfl, fun h => h, addLoop_size _ _,
    fun h => (addLoop_size _ _).trans h, ⟨idxs, hidx, fun j hj => addLoop_frame _ _ j hj⟩,
    fun _ => rfl⟩

/-- Witness of C14: `Add(v1)` on the small filter. -/
theorem add_contains_frame_witness :
    smallFilterAdded.k = smallFilter.k ∧ smallFilterAdded.n = smallFilter.n ∧
      smallFilterAdded.m = smallFilter.m ∧ smallFilterAdded.h = smallFilter.h ∧
      (smallFilter.h.length = smallFilter.k → smallFilterAdded.h.length = smallFilterAdded.k) ∧
      smallFilterAdded.a.size = smallFilter.a.size ∧
      (smallFilter.a.size = smallFilter.m → smallFilterAdded.a.size = smallFilterAdded.m) ∧
      (∃ idxs, bitIndexesToCheck xxh64 smallFilter v1 = .ok idxs ∧
        ∀ j, j ∉ idxs → smallFilterAdded.a.isSet j = smallFilter.a.isSet j) ∧
      ∀ w, step xxh64 smallFilter (.contains w) = smallFilter :=
  add_contains_frame xxh64 smallFilter v1 (smallFilterAdded, none) rfl

/-! ## Degenerate and fresh filters -/

theorem testCreate : CreateBloomFilter testEnv 1000 (1 / 10) = (testFilter, none) := by
  rw [CreateBloomFilter_ok testEnv 1000 (1 / 10) (by decide) (by norm_num) rfl, optimalM_1000,
    optimalK_1000]
  rfl

theorem bitIndexesToCheck_of_no_hasher (sum64 : Sum64) (bf : BloomFilter) (v : List Byte)
    (hk : bf.k = 0) (hh : bf.h.length = bf.k) : bitIndexesToCheck sum64 bf v = .ok [] := by
  have hnil : bf.h = [] := List.length_eq_zero.1 (hh.trans hk)
  unfold bitIndexesToCheck
  rw [hnil, hk]
  rfl

/-- C15. Degenerate filter for `p = 1`: for every `n > 0` the sizing gives
`optimalM(n, 1) = 0` and `optimalK(n, 0) = 0`, the constructor does not reject `p = 1`
(it returns no `InvalidArgumentError`, and the filter with `m = 0`, `k = 0` and a nil
error when the allocation succeeds), and every filter with `k = 0` (and, as always,
`len(hashers) == k`) answers `Contains(v)` with `(true, nil)` for every `v`, while
`Add(v)` returns nil and leaves the filter as it is. -/
theorem degenerate_filter_at_p_one (sum64 : Sum64) (env : Env) (n : Nat) (hn : 0 < n) :
    optimalM n 1 = 0 ∧ optimalK n 0 = 0 ∧
      (∀ e : InvalidArgumentError,
        (CreateBloomFilter env n 1).2 ≠ some (.invalidArgument e)) ∧
      (env.allocFails 0 = false →
        CreateBloomFilter env n 1 = (⟨0, n, 0, ⟨[]⟩, []⟩, none)) ∧
      ∀ bf : BloomFilter, bf.k = 0 → bf.h.length = bf.k → ∀ v : List Byte,
        Contains sum64 bf v = .ok (true, none) ∧ Add sum64 bf v = .ok (bf, none) := by
  have hn0 : n ≠ 0 := Nat.ne_of_gt hn
  have hp : ¬ (1 : ℝ) ≤ 0 := by norm_num
  refine ⟨optimalM_one n, optimalK_zero n, ?_, ?_, ?_⟩
  · intro e he
    unfold CreateBloomFilter at he
    rw [if_neg hn0, if_neg hp] at he
    cases ha : env.allocFails (optimalM n 1)
    · simp [NewBitArray, ha] at he
    · simp [NewBitArray, ha, WrapError] at he
  · intro ha
    rw [CreateBloomFilter_ok env n 1 hn (by norm_num) (by rw [optimalM_one]; exact ha),
      optimalM_one, optimalK_zero]
    rfl
  · intro bf hk hh v
    have hidx := bitIndexesToCheck_of_no_hasher sum64 bf v hk hh
    exact ⟨by rw [Contains_of_indexes sum64 bf v [] hidx]; rfl,
      by rw [Add_of_indexes sum64 bf v [] hidx]; rfl⟩

/-- Witness of C15: `CreateBloomFilter(1000, 1)` when allocations succeed. -/
theorem degenerate_filter_at_p_one_witness :
    optimalM 1000 1 = 0 ∧ optimalK 1000 0 = 0 ∧
      (∀ e : InvalidArgumentError,
        (CreateBloomFilter testEnv 1000 1).2 ≠ some (.invalidArgument e)) ∧
      (testEnv.allocFails 0 = false →
        CreateBloomFilter testEnv 1000 1 = (⟨0, 1000, 0, ⟨[]⟩, []⟩, none)) ∧
      ∀ bf : BloomFilter, bf.k = 0 → bf.h.length = bf.k → ∀ v : List Byte,
        Contains xxh64 bf v = .ok (true, none) ∧ Add xxh64 bf v = .ok (bf, none) :=
  degenerate_filter_at_p_one xxh64 testEnv 1000 (by decide)

/-- C17. A freshly constructed filter is empty: on the filter returned by
`CreateBloomFilter` with `k >= 1` (which on such a filter gives `m >= 1`), before any
`Add`, `Contains(v)` returns `(false, nil)` for every byte sequence `v`. -/
theorem fresh_filter_is_empty (sum64 : Sum64) (env : Env) (n : Nat) (p : ℝ) (v : List Byte)
    (hk : 1 ≤ (CreateBloomFilter env n p).1.k) :
    1 ≤ (CreateBloomFilter env n p).1.m ∧
      Contains sum64 (CreateBloomFilter env n p).1 v = .ok (false, none) := by
  refine ⟨?_, ?_⟩
  · have hwf := WF_CreateBloomFilter env n p
    rcases Nat.eq_zero_or_pos (CreateBloomFilter env n p).1.m with h0 | h0
    · rw [hwf.2.2 h0] at hk
      exact absurd hk (by decide)
    · exact h0
  have hwf := WF_CreateBloomFilter env n p
  rw [Contains_of_WF sum64 _ v hwf]
  rcases CreateBloomFilter_cases env n p with h | h
  · rw [h] at hk
    exact absurd hk (by decide)
  · have ha : (CreateBloomFilter env n p).1.a =
        ⟨List.replicate (optimalM n p) false⟩ := by rw [h]
    have hlen : 0 < (CreateBloomFilter env n p).1.h.length := by
      rw [hwf.1]
      exact hk
    obtain ⟨hash, hmem⟩ := List.exists_mem_of_length_pos hlen
    have hall : ((CreateBloomFilter env n p).1.h.map
        (bitIndex sum64 (CreateBloomFilter env n p).1.m v)).all
        (CreateBloomFilter env n p).1.a.isSet = false := by
      rw [List.all_eq_false]
      refine ⟨_, List.mem_map.2 ⟨hash, hmem, rfl⟩, ?_⟩
      rw [ha, isSet_replicate]
      simp
    rw [hall]

/-- Witness of C17: the filter returned by `CreateBloomFilter(1000, 0.1)`. -/
theorem fresh_filter_is_empty_witness :
    1 ≤ (CreateBloomFilter testEnv 1000 (1 / 10)).1.m ∧
      Contains xxh64 (CreateBloomFilter testEnv 1000 (1 / 10)).1 v1 = .ok (false, none) :=
  fresh_filter_is_empty xxh64 testEnv 1000 (1 / 10) v1 (by rw [testCreate]; decide)

/-- C19. No division by zero in the index derivation: for `n > 0`, `optimalK(n, 0) = 0`;
a filter returned by `CreateBloomFilter` with `m = 0` has `k = 0` and no hasher; and on
every filter a client can hold `m = 0` implies that there is no hasher, and
`bitIndexesToCheck` returns its positions, so it never divides by zero. -/
theorem no_division_by_zero (sum64 : Sum64) :
    (∀ n : Nat, 0 < n → optimalK n 0 = 0) ∧
      (∀ (env : Env) (n : Nat) (p : ℝ), (CreateBloomFilter env n p).1.m = 0 →
        (CreateBloomFilter env n p).1.k = 0 ∧ (CreateBloomFilter env n p).1.h = []) ∧
      ∀ bf : BloomFilter, Reachable sum64 bf →
        (bf.m = 0 → bf.k = 0 ∧ bf.h = []) ∧
        ∀ v : List Byte, (∃ idxs, bitIndexesToCheck sum64 bf v = .ok idxs) ∧
          bitIndexesToCheck sum64 bf v ≠ .error .integerDivideByZero := by
  have hzero : ∀ bf : BloomFilter, bf.WF → bf.m = 0 → bf.k = 0 ∧ bf.h = [] := by
    intro bf hwf hm
    exact ⟨hwf.2.2 hm, List.length_eq_zero.1 (hwf.1.trans (hwf.2.2 hm))⟩
  refine ⟨fun n _ => optimalK_zero n,
    fun env n p hm => hzero _ (WF_CreateBloomFilter env n p) hm, fun bf hr => ?_⟩
  have hwf := WF_of_Reachable sum64 bf hr
  refine ⟨hzero bf hwf, fun v => ?_⟩
  have hidx := bitIndexesToCheck_of_WF sum64 bf v hwf
  refine ⟨⟨_, hidx⟩, ?_⟩
  rw [hidx]
  intro h
  cases h

/-- Witness of C19: `n = 1000`, the filter returned by `CreateBloomFilter(1000, 1)`, which
has `m = 0`, and the value `v1`. -/
theorem no_division_by_zero_witness :
    optimalK 1000 0 = 0 ∧
      ((CreateBloomFilter testEnv 1000 1).1.m = 0 →
        (CreateBloomFilter testEnv 1000 1).1.k = 0 ∧ (CreateBloomFilter testEnv 1000 1).1.h = []) ∧
      (∃ idxs, bitIndexesToCheck xxh64 (CreateBloomFilter testEnv 1000 1).1 v1 = .ok idxs) ∧
      bitIndexesToCheck xxh64 (CreateBloomFilter testEnv 1000 1).1 v1 ≠
        .error .integerDivideByZero :=
  ⟨(no_division_by_zero xxh64).1 1000 (by decide),
    (no_division_by_zero xxh64).2.1 testEnv 1000 1,
    ((no_division_by_zero xxh64).2.2 _ (Reachable.create testEnv 1000 1)).2 v1⟩

/-! ## Order of the insertions -/

theorem BitArray_ext (a b : BitArray) (hs : a.size = b.size)
    (h : ∀ j, a.isSet j = b.isSet j) : a = b := by
  cases a with
  | mk as =>
    cases b with
    | mk bs =>
      have hl : as.length = bs.length := hs
      congr 1
      apply List.ext_getElem hl
      intro j h1 h2
      have hj := h j
      simp only [BitArray.isSet] at hj
      rw [List.getD_eq_getElem as false h1, List.getD_eq_getElem bs false h2] at hj
      exact hj

theorem addLoop_isSet (a : BitArray) (idxs : List Nat) (j : Nat) :
    (addLoop a idxs).1.isSet j =
      (a.isSet j || decide (j ∈ idxs.takeWhile (fun i => decide (i < a.size)))) := by
  induction idxs generalizing a with
  | nil => simp [addLoop]
  | cons i rest ih =>
    by_cases hi : i < a.size
    · have hto := TurnOn_of_lt hi
      have hok := TurnOn_ok hto
      have hfst : addLoop a (i :: rest) = addLoop ⟨a.bits.set i true⟩ rest := by
        conv_lhs => unfold addLoop
        rw [hto]
      rw [hfst, ih, hok.2.2 j, hok.2.1, List.takeWhile_cons_of_pos (by simpa using hi)]
      by_cases hij : i = j
      · subst hij
        simp
      · have hji : ¬ j = i := fun h => hij h.symm
        simp [hij, hji]
    · have hto : a.TurnOn i = .error (.outOfRange i) := by simp [BitArray.TurnOn, hi]
      have hfst : addLoop a (i :: rest) = (a, some (WrapError (.outOfRange i))) := by
        conv_lhs => unfold addLoop
        rw [hto]
      rw [hfst, List.takeWhile_cons_of_neg (by simpa using hi)]
      simp

theorem writtenPositions_congr (sum64 : Sum64) (bf bf' : BloomFilter) (w : List Byte)
    (hk : bf'.k = bf.k) (hm : bf'.m = bf.m) (hh : bf'.h = bf.h)
    (hs : bf'.a.size = bf.a.size) :
    writtenPositions sum64 bf' w = writtenPositions sum64 bf w := by
  unfold writtenPositions
  rw [bitIndexesToCheck_congr sum64 bf bf' w hk hm hh, hs]

theorem Add_isSet (sum64 : Sum64) (bf : BloomFilter) (v : List Byte)
    (r : BloomFilter × Option Error) (h : Add sum64 bf v = .ok r) (j : Nat) :
    r.1.a.isSet j = (bf.a.isSet j || decide (j ∈ writtenPositions sum64 bf v)) := by
  obtain ⟨idxs, hidx, rfl⟩ := Add_ok sum64 bf v r h
  unfold writtenPositions
  rw [hidx]
  exact addLoop_isSet bf.a idxs j

theorem AddAll_isSet (sum64 : Sum64) (ws : List (List Byte)) (bf bf' : BloomFilter)
    (h : AddAll sum64 bf ws = .ok bf') :
    bf'.k = bf.k ∧ bf'.n = bf.n ∧ bf'.m = bf.m ∧ bf'.h = bf.h ∧ bf'.a.size = bf.a.size ∧
      ∀ j, bf'.a.isSet j =
        (bf.a.isSet j || ws.any (fun w => decide (j ∈ writtenPositions sum64 bf w))) := by
  induction ws generalizing bf with
  | nil =>
    have hb : bf = bf' := by
      simp only [AddAll] at h
      injection h
    subst hb
    simp
  | cons w ws ih =>
    unfold AddAll at h
    cases hadd : Add sum64 bf w with
    | error e =>
      rw [hadd] at h
      cases h
    | ok r =>
      rw [hadd] at h
      obtain ⟨idxs, -, hr⟩ := Add_ok sum64 bf w r hadd
      have h1k : r.1.k = bf.k := by rw [hr]
      have h1n : r.1.n = bf.n := by rw [hr]
      have h1m : r.1.m = bf.m := by rw [hr]
      have h1h : r.1.h = bf.h := by rw [hr]
      have h1s : r.1.a.size = bf.a.size := by
        rw [hr]
        exact addLoop_size _ _
      obtain ⟨hk, hn, hm, hh, hs, hset⟩ := ih r.1 h
      refine ⟨hk.trans h1k, hn.trans h1n, hm.trans h1m, hh.trans h1h, hs.trans h1s, ?_⟩
      intro j
      rw [hset j, Add_isSet sum64 bf w r hadd j, List.any_cons, Bool.or_assoc]
      congr 2
      apply congrArg (fun f => List.any ws f)
      funext w'
      rw [writtenPositions_congr sum64 bf r.1 w' h1k h1m h1h h1s]

theorem AddAll_total (sum64 : Sum64) (bf0 : BloomFilter) (v : List Byte) (idxs : List Nat)
    (h0 : bitIndexesToCheck sum64 bf0 v = .ok idxs) (ws : List (List Byte)) (bf : BloomFilter)
    (hk : bf.k = bf0.k) (hm : bf.m = bf0.m) (hh : bf.h = bf0.h) :
    ∃ bf2, AddAll sum64 bf ws = .ok bf2 := by
  induction ws generalizing bf with
  | nil => exact ⟨bf, rfl⟩
  | cons w ws ih =>
    have hv : bitIndexesToCheck sum64 bf v = .ok idxs := by
      rw [bitIndexesToCheck_congr sum64 bf0 bf v hk hm hh, h0]
    obtain ⟨idxw, hw⟩ := bitIndexesToCheck_total sum64 bf v w idxs hv
    unfold AddAll
    rw [Add_of_indexes sum64 bf w idxw hw]
    exact ih _ hk hm hh

theorem BloomFilter_ext (x y : BloomFilter) (hk : x.k = y.k) (hn : x.n = y.n) (hm : x.m = y.m)
    (hh : x.h = y.h) (ha : x.a = y.a) : x = y := by
  cases x
  cases y
  simp only at hk hn hm hh ha
  subst hk hn hm hh ha
  rfl

theorem AddAll_same_values (sum64 : Sum64) (bf bf1 : BloomFilter) (ws1 ws2 : List (List Byte))
    (hsame : ∀ w, w ∈ ws1 ↔ w ∈ ws2) (h1 : AddAll sum64 bf ws1 = .ok bf1) :
    AddAll sum64 bf ws2 = .ok bf1 := by
  have htotal : ∃ bf2, AddAll sum64 bf ws2 = .ok bf2 := by
    cases ws2 with
    | nil => exact ⟨bf, rfl⟩
    | cons w2 rest2 =>
      cases ws1 with
      | nil =>
        have hmem : w2 ∈ ([] : List (List Byte)) := (hsame w2).2 (List.mem_cons_self _ _)
        cases hmem
      | cons w1 rest1 =>
        unfold AddAll at h1
        cases hadd : Add sum64 bf w1 with
        | error e =>
          rw [hadd] at h1
          cases h1
        | ok r =>
          obtain ⟨idxs, hidx, -⟩ := Add_ok sum64 bf w1 r hadd
          exact AddAll_total sum64 bf w1 idxs hidx _ bf rfl rfl rfl
  obtain ⟨bf2, h2⟩ := htotal
  rw [h2]
  congr 1
  obtain ⟨hk1, hn1, hm1, hh1, hs1, hset1⟩ := AddAll_isSet sum64 ws1 bf bf1 h1
  obtain ⟨hk2, hn2, hm2, hh2, hs2, hset2⟩ := AddAll_isSet sum64 ws2 bf bf2 h2
  apply BloomFilter_ext bf2 bf1 (hk2.trans hk1.symm) (hn2.trans hn1.symm) (hm2.trans hm1.symm)
    (hh2.trans hh1.symm)
  apply BitArray_ext _ _ (hs2.trans hs1.symm)
  intro j
  rw [hset1 j, hset2 j]
  congr 1
  rw [Bool.eq_iff_iff, List.any_eq_true, List.any_eq_true]
  constructor
  · rintro ⟨w, hw, hj⟩
    exact ⟨w, (hsame w).2 hw, hj⟩
  · rintro ⟨w, hw, hj⟩
    exact ⟨w, (hsame w).1 hw, hj⟩

/-- C18. `Add` commutes: on every filter, when `Add(a)` then `Add(b)` run without panic,
so do `Add(b)` then `Add(a)` and they leave the same filter (the same bit array); and the
filter left by a sequence of `Add` calls depends only on the set of values added, not on
their order or multiplicity. -/
theorem add_commutes (sum64 : Sum64) (bf : BloomFilter) :
    (∀ (a b : List Byte) (ra rab : BloomFilter × Option Error),
        Add sum64 bf a = .ok ra → Add sum64 ra.1 b = .ok rab →
        ∃ rb rba, Add sum64 bf b = .ok rb ∧ Add sum64 rb.1 a = .ok rba ∧ rba.1 = rab.1) ∧
      ∀ (ws1 ws2 : List (List Byte)) (bf1 : BloomFilter), (∀ w, w ∈ ws1 ↔ w ∈ ws2) →
        AddAll sum64 bf ws1 = .ok bf1 → AddAll sum64 bf ws2 = .ok bf1 := by
  refine ⟨fun a b ra rab ha hb => ?_,
    fun ws1 ws2 bf1 hsame h1 => AddAll_same_values sum64 bf bf1 ws1 ws2 hsame h1⟩
  have hab : AddAll sum64 bf [a, b] = .ok rab.1 := by
    simp only [AddAll, ha, hb]
  have hba : AddAll sum64 bf [b, a] = .ok rab.1 :=
    AddAll_same_values sum64 bf rab.1 [a, b] [b, a]
      (fun w => by simp only [List.mem_cons, List.mem_singleton, List.not_mem_nil, or_false]
                   exact Or.comm) hab
  cases hb' : Add sum64 bf b with
  | error e =>
    simp only [AddAll, hb'] at hba
    cases hba
  | ok rb =>
    cases ha' : Add sum64 rb.1 a with
    | error e =>
      simp only [AddAll, hb', ha'] at hba
      cases hba
    | ok rba =>
      simp only [AddAll, hb', ha'] at hba
      injection hba with hba
      exact ⟨rb, rba, rfl, ha', hba⟩

/-- Witness of C18: `v1` then `v2`, and `v2` then `v1`, on the small filter. -/
theorem add_commutes_witness :
    Add xxh64 smallFilter v1 = .ok (smallFilterAdded, none) ∧
      Add xxh64 smallFilterAdded v2 =
        .ok (⟨2, 3, 7, ⟨[true, false, false, true, false, true, false]⟩,
          [NewS64 1, NewS64 2]⟩, none) ∧
      ∃ rb rba, Add xxh64 smallFilter v2 = .ok rb ∧ Add xxh64 rb.1 v1 = .ok rba ∧
        rba.1 = ⟨2, 3, 7, ⟨[true, false, false, true, false, true, false]⟩,
          [NewS64 1, NewS64 2]⟩ :=
  ⟨rfl, rfl, (add_commutes xxh64 smallFilter).1 v1 v2 (smallFilterAdded, none)
    (⟨2, 3, 7, ⟨[true, false, false, true, false, true, false]⟩, [NewS64 1, NewS64 2]⟩, none)
    rfl rfl⟩

/-! ## Rounding to float64 -/

theorem floor_le_roundHalfEven (y : ℝ) : ⌊y⌋ ≤ roundHalfEven y := by
  unfold roundHalfEven
  split_ifs <;> omega

theorem roundHalfEven_le (y : ℝ) : roundHalfEven y ≤ ⌊y⌋ + 1 := by
  unfold roundHalfEven
  split_ifs <;> omega

theorem roundHalfEven_intCast (z : ℤ) : roundHalfEven (z : ℝ) = z := by
  unfold roundHalfEven
  simp

theorem roundHalfEven_mono {y1 y2 : ℝ} (h : y1 ≤ y2) : roundHalfEven y1 ≤ roundHalfEven y2 := by
  have hf : ⌊y1⌋ ≤ ⌊y2⌋ := Int.floor_mono h
  rcases lt_or_eq_of_le hf with hlt | heq
  · calc roundHalfEven y1 ≤ ⌊y1⌋ + 1 := roundHalfEven_le y1
      _ ≤ ⌊y2⌋ := by omega
      _ ≤ roundHalfEven y2 := floor_le_roundHalfEven y2
  · unfold roundHalfEven
    rw [heq]
    have hcast : y1 - (⌊y2⌋ : ℝ) ≤ y2 - (⌊y2⌋ : ℝ) := by linarith
    split_ifs <;> first | omega | (exfalso; linarith)

theorem roundHalfEven_neg (y : ℝ) : roundHalfEven (-y) = -roundHalfEven y := by
  by_cases hy : (⌊y⌋ : ℝ) = y
  · rw [← hy, ← Int.cast_neg, roundHalfEven_intCast, roundHalfEven_intCast]
  · have hlt : (⌊y⌋ : ℝ) < y := lt_of_le_of_ne (Int.floor_le y) hy
    have hlt2 : y < ⌊y⌋ + 1 := Int.lt_floor_add_one y
    have hfl : ⌊-y⌋ = -⌊y⌋ - 1 := by
      rw [Int.floor_eq_iff]
      push_cast
      constructor <;> linarith
    unfold roundHalfEven
    rw [hfl]
    push_cast
    have hpar : Even (-⌊y⌋ - 1) ↔ ¬ Even ⌊y⌋ := by
      rw [Int.even_sub, even_neg]
      simp
    split_ifs <;> first | omega | (exfalso; linarith) | (exfalso; tauto)

theorem two_zpow_pos (z : ℤ) : (0 : ℝ) < (2 : ℝ) ^ z := zpow_pos (by norm_num) z

theorem two_zpow_le {a b : ℤ} (h : a ≤ b) : (2 : ℝ) ^ a ≤ (2 : ℝ) ^ b :=
  zpow_le_zpow_right₀ (by norm_num) h

theorem zpow_log_le (x : ℝ) (hx : 0 < x) : (2 : ℝ) ^ Int.log 2 x ≤ x := by
  have h := Int.zpow_log_le_self (b := 2) (by norm_num) hx
  simpa using h

theorem lt_zpow_log_succ (x : ℝ) : x < (2 : ℝ) ^ (Int.log 2 x + 1) := by
  have h := Int.lt_zpow_succ_log_self (b := 2) (by norm_num) x
  simpa using h

theorem roundFloat64_zero : roundFloat64 0 = 0 := by
  unfold roundFloat64
  have h : roundHalfEven ((0 : ℝ) / (2 : ℝ) ^ ulpExp 0) = 0 := by
    rw [zero_div]
    exact_mod_cast roundHalfEven_intCast 0
  rw [h]
  simp

theorem roundFloat64_nonneg {x : ℝ} (hx : 0 ≤ x) : 0 ≤ roundFloat64 x := by
  unfold roundFloat64
  have hy : (0 : ℝ) ≤ x / (2 : ℝ) ^ ulpExp x := div_nonneg hx (le_of_lt (two_zpow_pos _))
  have h0 : (0 : ℤ) ≤ roundHalfEven (x / (2 : ℝ) ^ ulpExp x) :=
    le_trans (Int.floor_nonneg.2 hy) (floor_le_roundHalfEven _)
  exact mul_nonneg (by exact_mod_cast h0) (le_of_lt (two_zpow_pos _))

theorem roundFloat64_upper {x : ℝ} (hx : 0 < x) :
    roundFloat64 x ≤ (2 : ℝ) ^ (max (Int.log 2 x) (-1022) + 1) := by
  have habs : |x| = x := abs_of_pos hx
  have hu : ulpExp x = max (Int.log 2 x) (-1022) - 52 := by
    unfold ulpExp
    rw [habs]
  unfold roundFloat64
  rw [hu]
  set E := max (Int.log 2 x) (-1022) with hE
  have hup : (0 : ℝ) < (2 : ℝ) ^ (E - 52) := two_zpow_pos _
  have hxlt : x < (2 : ℝ) ^ (E + 1) :=
    lt_of_lt_of_le (lt_zpow_log_succ x) (two_zpow_le (by omega))
  have hy : x / (2 : ℝ) ^ (E - 52) < (2 : ℝ) ^ (53 : ℤ) := by
    rw [div_lt_iff₀ hup, ← zpow_add₀ (by norm_num : (2 : ℝ) ≠ 0)]
    have : (53 : ℤ) + (E - 52) = E + 1 := by ring
    rw [this]
    exact hxlt
  have hfl : ⌊x / (2 : ℝ) ^ (E - 52)⌋ < (2 : ℤ) ^ 53 := by
    rw [Int.floor_lt]
    have h53 : (((2 : ℤ) ^ 53 : ℤ) : ℝ) = (2 : ℝ) ^ (53 : ℤ) := by norm_num
    rw [h53]
    exact hy
  have hr : roundHalfEven (x / (2 : ℝ) ^ (E - 52)) ≤ (2 : ℤ) ^ 53 :=
    le_trans (roundHalfEven_le _) (by omega)
  have hr' : (roundHalfEven (x / (2 : ℝ) ^ (E - 52)) : ℝ) ≤ (2 : ℝ) ^ (53 : ℤ) := by
    calc (roundHalfEven (x / (2 : ℝ) ^ (E - 52)) : ℝ) ≤ (((2 : ℤ) ^ 53 : ℤ) : ℝ) := by
          exact_mod_cast hr
      _ = (2 : ℝ) ^ (53 : ℤ) := by norm_num
  calc (roundHalfEven (x / (2 : ℝ) ^ (E - 52)) : ℝ) * (2 : ℝ) ^ (E - 52)
      ≤ (2 : ℝ) ^ (53 : ℤ) * (2 : ℝ) ^ (E - 52) := mul_le_mul_of_nonneg_right hr' (le_of_lt hup)
    _ = (2 : ℝ) ^ (E + 1) := by
      rw [← zpow_add₀ (by norm_num : (2 : ℝ) ≠ 0)]
      congr 1
      ring

theorem roundFloat64_lower {x : ℝ} (hx : 0 < x) (hn : -1022 ≤ Int.log 2 x) :
    (2 : ℝ) ^ Int.log 2 x ≤ roundFloat64 x := by
  have habs : |x| = x := abs_of_pos hx
  have hu : ulpExp x = Int.log 2 x - 52 := by
    unfold ulpExp
    rw [habs, max_eq_left hn]
  unfold roundFloat64
  rw [hu]
  set E := Int.log 2 x with hE
  have hup : (0 : ℝ) < (2 : ℝ) ^ (E - 52) := two_zpow_pos _
  have hy : (2 : ℝ) ^ (52 : ℤ) ≤ x / (2 : ℝ) ^ (E - 52) := by
    rw [le_div_iff₀ hup, ← zpow_add₀ (by norm_num : (2 : ℝ) ≠ 0)]
    have : (52 : ℤ) + (E - 52) = E := by ring
    rw [this]
    exact zpow_log_le x hx
  have hfl : (2 : ℤ) ^ 52 ≤ ⌊x / (2 : ℝ) ^ (E - 52)⌋ := by
    rw [Int.le_floor]
    have h52 : (((2 : ℤ) ^ 52 : ℤ) : ℝ) = (2 : ℝ) ^ (52 : ℤ) := by norm_num
    rw [h52]
    exact hy
  have hr : (2 : ℤ) ^ 52 ≤ roundHalfEven (x / (2 : ℝ) ^ (E - 52)) :=
    le_trans hfl (floor_le_roundHalfEven _)
  have hr' : (2 : ℝ) ^ (52 : ℤ) ≤ (roundHalfEven (x / (2 : ℝ) ^ (E - 52)) : ℝ) := by
    calc (2 : ℝ) ^ (52 : ℤ) = (((2 : ℤ) ^ 52 : ℤ) : ℝ) := by norm_num
      _ ≤ (roundHalfEven (x / (2 : ℝ) ^ (E - 52)) : ℝ) := by exact_mod_cast hr
  calc (2 : ℝ) ^ E = (2 : ℝ) ^ (52 : ℤ) * (2 : ℝ) ^ (E - 52) := by
        rw [← zpow_add₀ (by norm_num : (2 : ℝ) ≠ 0)]
        congr 1
        ring
    _ ≤ (roundHalfEven (x / (2 : ℝ) ^ (E - 52)) : ℝ) * (2 : ℝ) ^ (E - 52) :=
        mul_le_mul_of_nonneg_right hr' (le_of_lt hup)

theorem roundFloat64_mono_pos {x y : ℝ} (hx : 0 < x) (hxy : x ≤ y) : roundFloat64 x ≤ roundFloat64 y := by
  have hy : 0 < y := lt_of_lt_of_le hx hxy
  have hlog : Int.log 2 x ≤ Int.log 2 y := Int.log_mono_right hx hxy
  by_cases heq : max (Int.log 2 x) (-1022) = max (Int.log 2 y) (-1022)
  · have hux : ulpExp x = ulpExp y := by
      unfold ulpExp
      rw [abs_of_pos hx, abs_of_pos hy, heq]
    unfold roundFloat64
    rw [hux]
    have hup : (0 : ℝ) < (2 : ℝ) ^ ulpExp y := two_zpow_pos _
    have hdiv : x / (2 : ℝ) ^ ulpExp y ≤ y / (2 : ℝ) ^ ulpExp y :=
      div_le_div_of_nonneg_right hxy (le_of_lt hup)
    have hr := roundHalfEven_mono hdiv
    exact mul_le_mul_of_nonneg_right (by exact_mod_cast hr) (le_of_lt hup)
  · have hlt : max (Int.log 2 x) (-1022) < max (Int.log 2 y) (-1022) :=
      lt_of_le_of_ne (max_le_max hlog le_rfl) heq
    have hny : -1022 ≤ Int.log 2 y := by
      by_contra hcon
      rw [max_eq_right (by omega : Int.log 2 y ≤ -1022)] at hlt
      exact absurd hlt (not_lt.2 (le_max_right _ _))
    have hmy : max (Int.log 2 y) (-1022) = Int.log 2 y := max_eq_left hny
    rw [hmy] at hlt
    calc roundFloat64 x ≤ (2 : ℝ) ^ (max (Int.log 2 x) (-1022) + 1) := roundFloat64_upper hx
      _ ≤ (2 : ℝ) ^ Int.log 2 y := two_zpow_le (by omega)
      _ ≤ roundFloat64 y := roundFloat64_lower hy hny

theorem roundFloat64_mono_nonneg {x y : ℝ} (hx : 0 ≤ x) (hxy : x ≤ y) : roundFloat64 x ≤ roundFloat64 y := by
  rcases eq_or_lt_of_le hx with h0 | hpos
  · rw [← h0, roundFloat64_zero]
    exact roundFloat64_nonneg (le_trans hx hxy)
  · exact roundFloat64_mono_pos hpos hxy

theorem roundFloat64_neg (x : ℝ) : roundFloat64 (-x) = -roundFloat64 x := by
  have hu : ulpExp (-x) = ulpExp x := by
    unfold ulpExp
    rw [abs_neg]
  unfold roundFloat64
  rw [hu, neg_div, roundHalfEven_neg]
  push_cast
  ring

theorem roundFloat64_fix (m e : ℤ) (hm : |m| < 2 ^ 53) (he : -1074 ≤ e) :
    roundFloat64 ((m : ℝ) * (2 : ℝ) ^ e) = (m : ℝ) * (2 : ℝ) ^ e := by
  rcases eq_or_ne m 0 with h0 | h0
  · rw [h0]
    simp [roundFloat64_zero]
  · have hmpos : (0 : ℝ) < |(m : ℝ)| := abs_pos.2 (by exact_mod_cast h0)
    have hxabs : |(m : ℝ) * (2 : ℝ) ^ e| = |(m : ℝ)| * (2 : ℝ) ^ e := by
      rw [abs_mul, abs_of_pos (two_zpow_pos e)]
    have hxpos : 0 < |(m : ℝ) * (2 : ℝ) ^ e| := by
      rw [hxabs]
      exact mul_pos hmpos (two_zpow_pos e)
    have hmlt : |(m : ℝ)| < (2 : ℝ) ^ (53 : ℤ) := by
      calc |(m : ℝ)| = ((|m| : ℤ) : ℝ) := by push_cast; rfl
        _ < (((2 : ℤ) ^ 53 : ℤ) : ℝ) := by exact_mod_cast hm
        _ = (2 : ℝ) ^ (53 : ℤ) := by norm_num
    have hxlt : |(m : ℝ) * (2 : ℝ) ^ e| < (2 : ℝ) ^ (53 + e) := by
      rw [hxabs, zpow_add₀ (by norm_num : (2 : ℝ) ≠ 0)]
      exact mul_lt_mul_of_pos_right hmlt (two_zpow_pos e)
    have hlog : Int.log 2 |(m : ℝ) * (2 : ℝ) ^ e| < 53 + e := by
      rw [← Int.lt_zpow_iff_log_lt (by norm_num) hxpos]
      simpa using hxlt
    have hu : ulpExp ((m : ℝ) * (2 : ℝ) ^ e) ≤ e := by
      unfold ulpExp
      have : max (Int.log 2 |(m : ℝ) * (2 : ℝ) ^ e|) (-1022) ≤ e + 52 := max_le (by omega) (by omega)
      omega
    obtain ⟨d, hd⟩ : ∃ d : ℕ, e = ulpExp ((m : ℝ) * (2 : ℝ) ^ e) + d :=
      ⟨(e - ulpExp ((m : ℝ) * (2 : ℝ) ^ e)).toNat, by omega⟩
    unfold roundFloat64
    set u := ulpExp ((m : ℝ) * (2 : ℝ) ^ e) with hudef
    have hdiv : (m : ℝ) * (2 : ℝ) ^ e / (2 : ℝ) ^ u = ((m * 2 ^ d : ℤ) : ℝ) := by
      rw [hd, zpow_add₀ (by norm_num : (2 : ℝ) ≠ 0)]
      push_cast
      field_simp
      ring
    rw [hdiv, roundHalfEven_intCast]
    rw [← hdiv]
    field_simp

theorem roundFloat64_dyadic (m e : ℤ) (x : ℝ) (hm : |m| < 2 ^ 53) (he : -1074 ≤ e)
    (hx : x = (m : ℝ) * (2 : ℝ) ^ e) : roundFloat64 x = x := by
  rw [hx]
  exact roundFloat64_fix m e hm he

theorem roundFloat64_ge {x b : ℝ} (m e : ℤ) (hm : |m| < 2 ^ 53) (he : -1074 ≤ e)
    (hb : b = (m : ℝ) * (2 : ℝ) ^ e) (hb0 : 0 ≤ b) (h : b ≤ x) : b ≤ roundFloat64 x := by
  have := roundFloat64_mono_nonneg hb0 h
  rwa [roundFloat64_dyadic m e b hm he hb] at this

theorem roundFloat64_le {x b : ℝ} (m e : ℤ) (hm : |m| < 2 ^ 53) (he : -1074 ≤ e)
    (hb : b = (m : ℝ) * (2 : ℝ) ^ e) (hx0 : 0 ≤ x) (h : x ≤ b) : roundFloat64 x ≤ b := by
  have := roundFloat64_mono_nonneg hx0 h
  rwa [roundFloat64_dyadic m e b hm he hb] at this

theorem one_le_roundFloat64_natCast (n : Nat) (hn : 0 < n) : 1 ≤ roundFloat64 (n : ℝ) :=
  roundFloat64_ge 1 0 (by norm_num) (by norm_num) (by norm_num) (by norm_num)
    (by exact_mod_cast hn)

theorem roundFloat64_natCast_le (n : Nat) (hn : n < 2 ^ 64) :
    roundFloat64 (n : ℝ) ≤ (2 : ℝ) ^ (64 : ℕ) :=
  roundFloat64_le 1 64 (by norm_num) (by norm_num) (by norm_num) (Nat.cast_nonneg n)
    (by exact_mod_cast le_of_lt hn)

theorem roundFloat64_Ln2_sq :
    15 / 32 ≤ roundFloat64 (Ln2 * Ln2) ∧ roundFloat64 (Ln2 * Ln2) ≤ 1 / 2 := by
  have h1 : (15 / 32 : ℝ) ≤ Ln2 * Ln2 := by
    unfold Ln2
    norm_num
  have h2 : Ln2 * Ln2 ≤ (1 / 2 : ℝ) := by
    unfold Ln2
    norm_num
  exact ⟨roundFloat64_ge 15 (-5) (by norm_num) (by norm_num) (by norm_num) (by norm_num) h1,
    roundFloat64_le 1 (-1) (by norm_num) (by norm_num) (by norm_num) (by linarith) h2⟩

theorem roundFloat64_Ln2 : 11 / 16 ≤ roundFloat64 Ln2 ∧ roundFloat64 Ln2 ≤ 89 / 128 := by
  have h1 : (11 / 16 : ℝ) ≤ Ln2 := by
    unfold Ln2
    norm_num
  have h2 : Ln2 ≤ (89 / 128 : ℝ) := by
    unfold Ln2
    norm_num
  exact ⟨roundFloat64_ge 11 (-4) (by norm_num) (by norm_num) (by norm_num) (by norm_num) h1,
    roundFloat64_le 89 (-7) (by norm_num) (by norm_num) (by norm_num) (by linarith) h2⟩

/-! ## The float64 sizing -/

theorem toUint64_of_range (fe : Float64Env) (z : ℤ) (h0 : 0 ≤ z) (h1 : z < 2 ^ 64) :
    toUint64 fe z = z.toNat := by
  unfold toUint64
  rw [if_pos ⟨h0, h1⟩]

theorem toUint64_lt (fe : Float64Env) (z : ℤ) : toUint64 fe z < 2 ^ 64 := by
  unfold toUint64
  split_ifs with h
  · omega
  · exact Nat.mod_lt _ (by norm_num)

theorem tiny_pos : (0 : ℝ) < (2 : ℝ) ^ (-1074 : ℤ) := two_zpow_pos _

theorem floatM_pos (fe : Float64Env) (n : Nat) (p : ℝ) (hn : 0 < n)
    (hlog : fe.log p ≤ -(2 : ℝ) ^ (-1074 : ℤ)) : 1 ≤ F64.floatM fe n p := by
  have ha := one_le_roundFloat64_natCast n hn
  have htiny := tiny_pos
  have hprod : (2 : ℝ) ^ (-1074 : ℤ) ≤ -(roundFloat64 (n : ℝ)) * fe.log p := by nlinarith
  have hp1 : (2 : ℝ) ^ (-1074 : ℤ) ≤ roundFloat64 (-(roundFloat64 (n : ℝ)) * fe.log p) :=
    roundFloat64_ge 1 (-1074) (by norm_num) (by norm_num) (by norm_num) (le_of_lt htiny) hprod
  obtain ⟨hc1, hc2⟩ := roundFloat64_Ln2_sq
  have hc0 : (0 : ℝ) < roundFloat64 (Ln2 * Ln2) := by linarith
  have hq : (2 : ℝ) ^ (-1074 : ℤ) ≤
      roundFloat64 (-(roundFloat64 (n : ℝ)) * fe.log p) / roundFloat64 (Ln2 * Ln2) := by
    rw [le_div_iff₀ hc0]
    nlinarith
  have hq1 : (2 : ℝ) ^ (-1074 : ℤ) ≤ roundFloat64
      (roundFloat64 (-(roundFloat64 (n : ℝ)) * fe.log p) / roundFloat64 (Ln2 * Ln2)) :=
    roundFloat64_ge 1 (-1074) (by norm_num) (by norm_num) (by norm_num) (le_of_lt htiny) hq
  have hpos : 0 < F64.floatM fe n p := by
    unfold F64.floatM
    exact Int.ceil_pos.2 (lt_of_lt_of_le htiny hq1)
  omega

theorem floatK_bounds (n m : Nat) (hn : 0 < n) (hn64 : n < 2 ^ 64) (hm : 0 < m)
    (hm64 : m < 2 ^ 64) : 1 ≤ F64.floatK n m ∧ F64.floatK n m < 2 ^ 64 := by
  have hm1 := one_le_roundFloat64_natCast m hm
  have hm2 := roundFloat64_natCast_le m hm64
  have hn1 := one_le_roundFloat64_natCast n hn
  have hn2 := roundFloat64_natCast_le n hn64
  obtain ⟨hl1, hl2⟩ := roundFloat64_Ln2
  have hprod1 : (1 / 2 : ℝ) ≤ roundFloat64 (m : ℝ) * roundFloat64 Ln2 := by nlinarith
  have hprod2 : roundFloat64 (m : ℝ) * roundFloat64 Ln2 ≤ 3 * (2 : ℝ) ^ (62 : ℕ) := by nlinarith
  have ht1 : (1 / 2 : ℝ) ≤ roundFloat64 (roundFloat64 (m : ℝ) * roundFloat64 Ln2) :=
    roundFloat64_ge 1 (-1) (by norm_num) (by norm_num) (by norm_num) (by norm_num) hprod1
  have ht2 : roundFloat64 (roundFloat64 (m : ℝ) * roundFloat64 Ln2) ≤ 3 * (2 : ℝ) ^ (62 : ℕ) :=
    roundFloat64_le 3 62 (by norm_num) (by norm_num) (by norm_num) (by linarith) hprod2
  have hn0 : (0 : ℝ) < roundFloat64 (n : ℝ) := by linarith
  have hq1 : (2 : ℝ) ^ (-65 : ℤ) ≤
      roundFloat64 (roundFloat64 (m : ℝ) * roundFloat64 Ln2) / roundFloat64 (n : ℝ) := by
    rw [le_div_iff₀ hn0]
    have h65 : (2 : ℝ) ^ (-65 : ℤ) * (2 : ℝ) ^ (64 : ℕ) = 1 / 2 := by norm_num
    have h65pos : (0 : ℝ) < (2 : ℝ) ^ (-65 : ℤ) := two_zpow_pos _
    calc (2 : ℝ) ^ (-65 : ℤ) * roundFloat64 (n : ℝ)
        ≤ (2 : ℝ) ^ (-65 : ℤ) * (2 : ℝ) ^ (64 : ℕ) :=
          mul_le_mul_of_nonneg_left hn2 (le_of_lt h65pos)
      _ = 1 / 2 := h65
      _ ≤ _ := ht1
  have hq2 : roundFloat64 (roundFloat64 (m : ℝ) * roundFloat64 Ln2) / roundFloat64 (n : ℝ) ≤
      3 * (2 : ℝ) ^ (62 : ℕ) := by
    rw [div_le_iff₀ hn0]
    nlinarith
  have hr1 : (2 : ℝ) ^ (-65 : ℤ) ≤ roundFloat64
      (roundFloat64 (roundFloat64 (m : ℝ) * roundFloat64 Ln2) / roundFloat64 (n : ℝ)) :=
    roundFloat64_ge 1 (-65) (by norm_num) (by norm_num) (by norm_num)
      (le_of_lt (two_zpow_pos _)) hq1
  have hr2 : roundFloat64
      (roundFloat64 (roundFloat64 (m : ℝ) * roundFloat64 Ln2) / roundFloat64 (n : ℝ)) ≤
      3 * (2 : ℝ) ^ (62 : ℕ) :=
    roundFloat64_le 3 62 (by norm_num) (by norm_num) (by norm_num)
      (le_trans (le_of_lt (two_zpow_pos _)) hq1) hq2
  have hpos : 0 < F64.floatK n m := by
    unfold F64.floatK
    exact Int.ceil_pos.2 (lt_of_lt_of_le (two_zpow_pos _) hr1)
  have hle : F64.floatK n m ≤ 3 * 2 ^ 62 := by
    unfold F64.floatK
    rw [Int.ceil_le]
    have hcast : (((3 * 2 ^ 62 : ℤ)) : ℝ) = 3 * (2 : ℝ) ^ (62 : ℕ) := by norm_num
    rw [hcast]
    exact hr2
  constructor <;> omega

theorem float_optimalK_pos (fe : Float64Env) (n m : Nat) (hn : 0 < n) (hn64 : n < 2 ^ 64)
    (hm : 0 < m) (hm64 : m < 2 ^ 64) : 1 ≤ F64.optimalK fe n m := by
  obtain ⟨h1, h2⟩ := floatK_bounds n m hn hn64 hm hm64
  unfold F64.optimalK
  rw [toUint64_of_range fe _ (by omega) h2]
  omega

theorem float_optimalM_pos (fe : Float64Env) (n : Nat) (p : ℝ) (hn : 0 < n)
    (hlog : fe.log p ≤ -(2 : ℝ) ^ (-1074 : ℤ))
    (hovf : ∀ z : ℤ, 2 ^ 64 ≤ z → 1 ≤ fe.ovf z % 2 ^ 64) : 1 ≤ F64.optimalM fe n p := by
  have h1 := floatM_pos fe n p hn hlog
  unfold F64.optimalM toUint64
  split_ifs with h
  · omega
  · exact hovf _ (by omega)

theorem floatM_at_log_zero (fe : Float64Env) (n : Nat) (p : ℝ) (hlog : fe.log p = 0) :
    F64.floatM fe n p = 0 := by
  unfold F64.floatM
  rw [hlog, mul_zero, roundFloat64_zero, zero_div, roundFloat64_zero]
  simp

theorem floatK_at_zero (n : Nat) : F64.floatK n 0 = 0 := by
  unfold F64.floatK
  rw [Nat.cast_zero, roundFloat64_zero, zero_mul, roundFloat64_zero, zero_div, roundFloat64_zero]
  simp

theorem float_CreateBloomFilter_ok (fe : Float64Env) (env : Env) (n : Nat) (p : ℝ)
    (hn : 0 < n) (hp : 0 < p) (ha : env.allocFails (F64.optimalM fe n p) = false) :
    F64.CreateBloomFilter fe env n p =
      (⟨F64.optimalK fe n (F64.optimalM fe n p), n, F64.optimalM fe n p,
        ⟨List.replicate (F64.optimalM fe n p) false⟩,
        (List.range (F64.optimalK fe n (F64.optimalM fe n p))).map
          (fun i => NewS64 (env.rand i % 2 ^ 64))⟩, none) := by
  unfold F64.CreateBloomFilter
  rw [if_neg (Nat.ne_of_gt hn), if_neg (not_le.2 hp)]
  simp [NewBitArray, ha]

/-! ## The logarithm and the conversion used in the examples -/

theorem nearestLog_eq (x : ℝ) : nearestLog x = -roundFloat64 (-Real.log x) := by
  unfold nearestLog
  rw [roundFloat64_neg, neg_neg]

theorem nearestLog_mono (x y : ℝ) (hx : 0 < x) (hxy : x ≤ y) (hy : y ≤ 1) :
    nearestLog x ≤ nearestLog y ∧ nearestLog y ≤ 0 := by
  have hy0 : 0 < y := lt_of_lt_of_le hx hxy
  have h1 : Real.log x ≤ Real.log y := Real.log_le_log hx hxy
  have h2 : Real.log y ≤ 0 := Real.log_nonpos (le_of_lt hy0) hy
  rw [nearestLog_eq, nearestLog_eq]
  have hm := roundFloat64_mono_nonneg (by linarith : (0 : ℝ) ≤ -Real.log y)
    (by linarith : -Real.log y ≤ -Real.log x)
  have hn := roundFloat64_nonneg (by linarith : (0 : ℝ) ≤ -Real.log y)
  constructor <;> linarith

theorem nearestLog_le_neg_half (x : ℝ) (hx : 0 < x) (hx2 : x ≤ 1 / 2) :
    nearestLog x ≤ -(1 / 2) := by
  have h1 : Real.log x ≤ x - 1 := Real.log_le_sub_one_of_pos hx
  rw [nearestLog_eq]
  have := roundFloat64_ge (x := -Real.log x) (b := 1 / 2) 1 (-1) (by norm_num) (by norm_num)
    (by norm_num) (by norm_num) (by linarith)
  linarith

theorem nearestLog_half : -(89 / 128) ≤ nearestLog (1 / 2) ∧ nearestLog (1 / 2) ≤ -(11 / 16) := by
  have hlo := Real.log_two_gt_d9
  have hhi := Real.log_two_lt_d9
  have hlog : -Real.log (1 / 2) = Real.log 2 := by
    rw [one_div, Real.log_inv, neg_neg]
  rw [nearestLog_eq, hlog]
  have h1 := roundFloat64_ge (x := Real.log 2) (b := 11 / 16) 11 (-4) (by norm_num) (by norm_num)
    (by norm_num) (by norm_num) (by linarith)
  have h2 := roundFloat64_le (x := Real.log 2) (b := 89 / 128) 89 (-7) (by norm_num)
    (by norm_num) (by norm_num) (by linarith) (by linarith)
  constructor <;> linarith

theorem tiny_le_half : (2 : ℝ) ^ (-1074 : ℤ) ≤ 1 / 2 := by
  have h : (2 : ℝ) ^ (-1074 : ℤ) ≤ (2 : ℝ) ^ (-1 : ℤ) := two_zpow_le (by norm_num)
  have h2 : (2 : ℝ) ^ (-1 : ℤ) = 1 / 2 := by norm_num
  linarith

theorem amd64_overflow (z : ℤ) (hz : 2 ^ 64 ≤ z) : amd64.ovf z % 2 ^ 64 = 2 ^ 63 := by
  show amd64Uint64 z % 2 ^ 64 = 2 ^ 63
  unfold amd64Uint64
  rw [if_neg (by omega)]
  norm_num

/-! ## Sizes of a constructed filter, in float64 -/

/-- C6. For `n > 0` (a `uint64`) and `0 < p < 1`, for which `math.Log(p)` is a negative
float64, so at most `-2^-1074`: when the allocation of the bit array succeeds,
`CreateBloomFilter(n, p)` returns a nil error and a filter with `m = optimalM(n, p)` and
`k = optimalK(n, m)`, the float64 values of `ceil(-n*ln(p)/ln(2)^2)` and
`ceil(m*ln(2)/n)` converted to `uint64`, both at least 1; its bit array has `m` clear
bits and it has `k` hashers. Where the quotient for `m` is beyond `2^64` the conversion
is left to the implementation, which is taken not to return 0 there (amd64 returns
`2^63`). -/
theorem create_valid (fe : Float64Env) (env : Env) (n : Nat) (p : ℝ) (hn : 0 < n)
    (hn64 : n < 2 ^ 64) (hp : 0 < p) (hlog : fe.log p ≤ -(2 : ℝ) ^ (-1074 : ℤ))
    (hovf : ∀ z : ℤ, 2 ^ 64 ≤ z → 1 ≤ fe.ovf z % 2 ^ 64)
    (ha : env.allocFails (F64.optimalM fe n p) = false) :
    ∃ bf, F64.CreateBloomFilter fe env n p = (bf, none) ∧
      bf.m = F64.optimalM fe n p ∧ bf.k = F64.optimalK fe n bf.m ∧
      1 ≤ bf.m ∧ 1 ≤ bf.k ∧ bf.m < 2 ^ 64 ∧ bf.k < 2 ^ 64 ∧
      bf.n = n ∧ bf.a = ⟨List.replicate bf.m false⟩ ∧ bf.h.length = bf.k := by
  have hm := float_optimalM_pos fe n p hn hlog hovf
  have hm64 : F64.optimalM fe n p < 2 ^ 64 := toUint64_lt fe _
  have hk := float_optimalK_pos fe n (F64.optimalM fe n p) hn hn64 hm hm64
  have hk64 : F64.optimalK fe n (F64.optimalM fe n p) < 2 ^ 64 := toUint64_lt fe _
  exact ⟨_, float_CreateBloomFilter_ok fe env n p hn hp ha, rfl, rfl, hm, hk, hm64, hk64, rfl,
    rfl, by simp⟩

/-- Witness of C6: the valid call of the repository's test, `n = 1000`, `p = 0.1`, with
the nearest-float64 logarithm and the amd64 conversion. -/
theorem create_valid_witness :
    ∃ bf, F64.CreateBloomFilter amd64 testEnv 1000 (1 / 10) = (bf, none) ∧
      bf.m = F64.optimalM amd64 1000 (1 / 10) ∧ bf.k = F64.optimalK amd64 1000 bf.m ∧
      1 ≤ bf.m ∧ 1 ≤ bf.k ∧ bf.m < 2 ^ 64 ∧ bf.k < 2 ^ 64 ∧
      bf.n = 1000 ∧ bf.a = ⟨List.replicate bf.m false⟩ ∧ bf.h.length = bf.k :=
  create_valid amd64 testEnv 1000 (1 / 10) (by decide) (by norm_num) (by norm_num)
    (le_trans (nearestLog_le_neg_half (1 / 10) (by norm_num) (by norm_num))
      (neg_le_neg tiny_le_half))
    (fun z hz => by rw [amd64_overflow z hz]; norm_num) rfl

/-- C7, amended. For every `n > 0` (a `uint64`) and every `p` for which `math.Log(p)` is
a negative float64 (so at most `-2^-1074`), as it is for `0 < p < 1`, the sizes
`m = optimalM(n, p)` and `k = optimalK(n, m)` computed in float64 are both at least 1,
the conversion of a quotient beyond `2^64` being taken not to return 0; and when
`math.Log(1) = 0`, `optimalM(n, 1) = 0` and `optimalK(n, 0) = 0`. -/
theorem sizes_positive (fe : Float64Env) (n : Nat) (p : ℝ) (hn : 0 < n) (hn64 : n < 2 ^ 64)
    (hlog : fe.log p ≤ -(2 : ℝ) ^ (-1074 : ℤ))
    (hovf : ∀ z : ℤ, 2 ^ 64 ≤ z → 1 ≤ fe.ovf z % 2 ^ 64) :
    1 ≤ F64.optimalM fe n p ∧ 1 ≤ F64.optimalK fe n (F64.optimalM fe n p) ∧
      (fe.log 1 = 0 → F64.optimalM fe n 1 = 0 ∧ F64.optimalK fe n 0 = 0) := by
  have hm := float_optimalM_pos fe n p hn hlog hovf
  refine ⟨hm, float_optimalK_pos fe n _ hn hn64 hm (toUint64_lt fe _), fun h1 => ?_⟩
  constructor
  · unfold F64.optimalM
    rw [floatM_at_log_zero fe n 1 h1]
    rfl
  · unfold F64.optimalK
    rw [floatK_at_zero n]
    rfl

/-- Witness of C7 amended: `n = 1` and `p = 0.5`, with the nearest-float64 logarithm and
the amd64 conversion. -/
theorem sizes_positive_witness :
    1 ≤ F64.optimalM amd64 1 (1 / 2) ∧ 1 ≤ F64.optimalK amd64 1 (F64.optimalM amd64 1 (1 / 2)) ∧
      (amd64.log 1 = 0 → F64.optimalM amd64 1 1 = 0 ∧ F64.optimalK amd64 1 0 = 0) :=
  sizes_positive amd64 1 (1 / 2) (by decide) (by norm_num)
    (le_trans (nearestLog_le_neg_half (1 / 2) (by norm_num) (by norm_num))
      (neg_le_neg tiny_le_half))
    (fun z hz => by rw [amd64_overflow z hz]; norm_num)

/-! ## Monotonicity of `optimalM`, in float64 -/

theorem floatM_nonneg (fe : Float64Env) (n : Nat) (p : ℝ) (hl0 : fe.log p ≤ 0) :
    0 ≤ F64.floatM fe n p := by
  have ha : (0 : ℝ) ≤ roundFloat64 (n : ℝ) := roundFloat64_nonneg (Nat.cast_nonneg n)
  have hprod : (0 : ℝ) ≤ -(roundFloat64 (n : ℝ)) * fe.log p := by nlinarith
  have hc : (0 : ℝ) ≤ roundFloat64 (Ln2 * Ln2) := by linarith [roundFloat64_Ln2_sq.1]
  unfold F64.floatM
  exact Int.ceil_nonneg (roundFloat64_nonneg (div_nonneg (roundFloat64_nonneg hprod) hc))

theorem floatM_mono (fe : Float64Env) (n1 n2 : Nat) (p1 p2 : ℝ) (hn : n1 ≤ n2)
    (hl : fe.log p2 ≤ fe.log p1) (hl0 : fe.log p1 ≤ 0) :
    F64.floatM fe n1 p1 ≤ F64.floatM fe n2 p2 := by
  have ha1 : (0 : ℝ) ≤ roundFloat64 (n1 : ℝ) := roundFloat64_nonneg (Nat.cast_nonneg n1)
  have ha : roundFloat64 (n1 : ℝ) ≤ roundFloat64 (n2 : ℝ) :=
    roundFloat64_mono_nonneg (Nat.cast_nonneg n1) (by exact_mod_cast hn)
  have hprod0 : (0 : ℝ) ≤ -(roundFloat64 (n1 : ℝ)) * fe.log p1 := by nlinarith
  have hprod : -(roundFloat64 (n1 : ℝ)) * fe.log p1 ≤ -(roundFloat64 (n2 : ℝ)) * fe.log p2 := by
    nlinarith
  have hr := roundFloat64_mono_nonneg hprod0 hprod
  have hc : (0 : ℝ) ≤ roundFloat64 (Ln2 * Ln2) := by linarith [roundFloat64_Ln2_sq.1]
  have hq := div_le_div_of_nonneg_right hr hc
  have hq0 : (0 : ℝ) ≤ roundFloat64 (-(roundFloat64 (n1 : ℝ)) * fe.log p1) /
      roundFloat64 (Ln2 * Ln2) := div_nonneg (roundFloat64_nonneg hprod0) hc
  unfold F64.floatM
  exact Int.ceil_mono (roundFloat64_mono_nonneg hq0 hq)

/-- C16, amended. For `n1 <= n2` and `0 < p2 <= p1 < 1`, with a `math.Log` that is
non-decreasing and non-positive on `(0, 1)`: when the quotient `floatM` for `(n2, p2)` is
below `2^64`, so that its conversion to `uint64` is defined,
`optimalM(n1, p1) <= optimalM(n2, p2)`, both computed in float64. -/
theorem optimalM_monotone (fe : Float64Env) (n1 n2 : Nat) (p1 p2 : ℝ) (hn : n1 ≤ n2)
    (hp2 : 0 < p2) (hp : p2 ≤ p1) (hp1 : p1 < 1)
    (hmono : ∀ x y : ℝ, 0 < x → x ≤ y → y < 1 → fe.log x ≤ fe.log y ∧ fe.log y ≤ 0)
    (hq : F64.floatM fe n2 p2 < 2 ^ 64) :
    F64.optimalM fe n1 p1 ≤ F64.optimalM fe n2 p2 := by
  obtain ⟨hl, hl0⟩ := hmono p2 p1 hp2 hp hp1
  have h12 := floatM_mono fe n1 n2 p1 p2 hn hl hl0
  have h1 := floatM_nonneg fe n1 p1 hl0
  unfold F64.optimalM
  rw [toUint64_of_range fe _ h1 (by omega), toUint64_of_range fe _ (by omega) hq]
  omega

theorem floatM_witness_bound : F64.floatM amd64 2000 (1 / 4) < 2 ^ 64 := by
  have ha : roundFloat64 ((2000 : ℕ) : ℝ) ≤ 2048 :=
    roundFloat64_le 1 11 (by norm_num) (by norm_num) (by norm_num) (by norm_num) (by norm_num)
  have ha0 : (0 : ℝ) ≤ roundFloat64 ((2000 : ℕ) : ℝ) := roundFloat64_nonneg (by norm_num)
  have hlog4 : -Real.log (1 / 4) ≤ 4 := by
    have h := Real.log_le_sub_one_of_pos (by norm_num : (0 : ℝ) < 4)
    have h4 : -Real.log (1 / 4) = Real.log 4 := by
      rw [one_div, Real.log_inv, neg_neg]
    rw [h4]
    linarith
  have hlog0 : (0 : ℝ) ≤ -Real.log (1 / 4) := by
    have := Real.log_nonpos (by norm_num : (0 : ℝ) ≤ 1 / 4) (by norm_num)
    linarith
  have hL : -(4 : ℝ) ≤ amd64.log (1 / 4) := by
    show -(4 : ℝ) ≤ nearestLog (1 / 4)
    rw [nearestLog_eq]
    have := roundFloat64_le (x := -Real.log (1 / 4)) (b := 4) 1 2 (by norm_num) (by norm_num)
      (by norm_num) hlog0 hlog4
    linarith
  have hL0 : amd64.log (1 / 4) ≤ 0 :=
    (nearestLog_mono (1 / 4) (1 / 4) (by norm_num) le_rfl (by norm_num)).2
  have hprod0 : (0 : ℝ) ≤ -(roundFloat64 ((2000 : ℕ) : ℝ)) * amd64.log (1 / 4) := by
    have := mul_nonneg ha0 (neg_nonneg.2 hL0)
    linarith
  have hprod : -(roundFloat64 ((2000 : ℕ) : ℝ)) * amd64.log (1 / 4) ≤ 8192 := by
    have := mul_le_mul ha (by linarith : -amd64.log (1 / 4) ≤ 4) (neg_nonneg.2 hL0)
      (by norm_num : (0 : ℝ) ≤ 2048)
    linarith
  have hr : roundFloat64 (-(roundFloat64 ((2000 : ℕ) : ℝ)) * amd64.log (1 / 4)) ≤ 8192 :=
    roundFloat64_le 1 13 (by norm_num) (by norm_num) (by norm_num) hprod0 hprod
  have hr0 := roundFloat64_nonneg hprod0
  obtain ⟨hc1, -⟩ := roundFloat64_Ln2_sq
  have hc0 : (0 : ℝ) < roundFloat64 (Ln2 * Ln2) := by linarith
  have hquot : roundFloat64 (-(roundFloat64 ((2000 : ℕ) : ℝ)) * amd64.log (1 / 4)) /
      roundFloat64 (Ln2 * Ln2) ≤ 32768 := by
    rw [div_le_iff₀ hc0]
    nlinarith
  have hq := roundFloat64_le 1 15 (by norm_num) (by norm_num) (by norm_num)
    (div_nonneg hr0 (le_of_lt hc0)) hquot
  have hle : F64.floatM amd64 2000 (1 / 4) ≤ 32768 := by
    unfold F64.floatM
    rw [Int.ceil_le]
    have hcast : (((32768 : ℤ)) : ℝ) = 32768 := by norm_num
    rw [hcast]
    exact hq
  omega

/-- Witness of C16 amended: from `n = 1000`, `p = 0.5` to `n = 2000`, `p = 0.25`, with the
nearest-float64 logarithm. -/
theorem optimalM_monotone_witness :
    F64.optimalM amd64 1000 (1 / 2) ≤ F64.optimalM amd64 2000 (1 / 4) :=
  optimalM_monotone amd64 1000 2000 (1 / 2) (1 / 4) (by decide) (by norm_num) (by norm_num)
    (by norm_num) (fun x y hx hxy hy => nearestLog_mono x y hx hxy (le_of_lt hy))
    floatM_witness_bound

theorem floatM_overflow : 2 ^ 64 ≤ F64.floatM amd64 18446744073709551615 (1 / 2) := by
  have ha : (18446744073709549568 : ℝ) ≤ roundFloat64 ((18446744073709551615 : ℕ) : ℝ) :=
    roundFloat64_ge 9007199254740991 11 (by norm_num) (by norm_num) (by norm_num) (by norm_num)
      (by norm_num)
  have hL : amd64.log (1 / 2) ≤ -(11 / 16) := nearestLog_half.2
  have hprod : (11529215046068469760 : ℝ) ≤
      -(roundFloat64 ((18446744073709551615 : ℕ) : ℝ)) * amd64.log (1 / 2) := by
    have := mul_le_mul ha (by linarith : (11 / 16 : ℝ) ≤ -amd64.log (1 / 2)) (by norm_num)
      (by linarith : (0 : ℝ) ≤ roundFloat64 ((18446744073709551615 : ℕ) : ℝ))
    linarith
  have hr : (11529215046068469760 : ℝ) ≤
      roundFloat64 (-(roundFloat64 ((18446744073709551615 : ℕ) : ℝ)) * amd64.log (1 / 2)) :=
    roundFloat64_ge 5 61 (by norm_num) (by norm_num) (by norm_num) (by norm_num) hprod
  obtain ⟨hc1, hc2⟩ := roundFloat64_Ln2_sq
  have hc0 : (0 : ℝ) < roundFloat64 (Ln2 * Ln2) := by linarith
  have hquot : (18446744073709551616 : ℝ) ≤
      roundFloat64 (-(roundFloat64 ((18446744073709551615 : ℕ) : ℝ)) * amd64.log (1 / 2)) /
        roundFloat64 (Ln2 * Ln2) := by
    rw [le_div_iff₀ hc0]
    nlinarith
  have hq := roundFloat64_ge 1 64 (by norm_num) (by norm_num) (by norm_num) (by norm_num) hquot
  have hceil := Int.le_ceil (roundFloat64
    (roundFloat64 (-(roundFloat64 ((18446744073709551615 : ℕ) : ℝ)) * amd64.log (1 / 2)) /
      roundFloat64 (Ln2 * Ln2)))
  have hfinal : ((2 ^ 64 : ℤ) : ℝ) ≤ ((F64.floatM amd64 18446744073709551615 (1 / 2) : ℤ) : ℝ) := by
    unfold F64.floatM
    have hcast : ((2 ^ 64 : ℤ) : ℝ) = 18446744073709551616 := by norm_num
    rw [hcast]
    exact le_trans hq hceil
  exact_mod_cast hfinal

theorem floatM_in_range :
    7 * 2 ^ 61 ≤ F64.floatM amd64 12000000000000000000 (1 / 2) ∧
      F64.floatM amd64 12000000000000000000 (1 / 2) < 2 ^ 64 := by
  have ha : roundFloat64 ((12000000000000000000 : ℕ) : ℝ) = 12000000000000000000 := by
    have := roundFloat64_dyadic 11444091796875 20 (12000000000000000000 : ℝ) (by norm_num)
      (by norm_num) (by norm_num)
    rw [← this]
    norm_num
  obtain ⟨hL1, hL2⟩ := nearestLog_half
  have hLa : -(89 / 128 : ℝ) ≤ amd64.log (1 / 2) := hL1
  have hLb : amd64.log (1 / 2) ≤ -(11 / 16 : ℝ) := hL2
  have hprod1 : (8070450532247928832 : ℝ) ≤
      -(roundFloat64 ((12000000000000000000 : ℕ) : ℝ)) * amd64.log (1 / 2) := by
    rw [ha]
    linarith
  have hprod2 : -(roundFloat64 ((12000000000000000000 : ℕ) : ℝ)) * amd64.log (1 / 2) ≤
      (8358680908399640576 : ℝ) := by
    rw [ha]
    linarith
  have hr1 := roundFloat64_ge 7 60 (by norm_num) (by norm_num) (by norm_num) (by norm_num) hprod1
  have hr2 := roundFloat64_le 29 58 (by norm_num) (by norm_num) (by norm_num)
    (le_trans (by norm_num) hprod1) hprod2
  obtain ⟨hc1, hc2⟩ := roundFloat64_Ln2_sq
  have hc0 : (0 : ℝ) < roundFloat64 (Ln2 * Ln2) := by linarith
  have hquot1 : (16140901064495857664 : ℝ) ≤
      roundFloat64 (-(roundFloat64 ((12000000000000000000 : ℕ) : ℝ)) * amd64.log (1 / 2)) /
        roundFloat64 (Ln2 * Ln2) := by
    rw [le_div_iff₀ hc0]
    nlinarith
  have hquot2 :
      roundFloat64 (-(roundFloat64 ((12000000000000000000 : ℕ) : ℝ)) * amd64.log (1 / 2)) /
        roundFloat64 (Ln2 * Ln2) ≤ (18446744073709549568 : ℝ) := by
    rw [div_le_iff₀ hc0]
    nlinarith
  have hq1 := roundFloat64_ge 7 61 (by norm_num) (by norm_num) (by norm_num) (by norm_num) hquot1
  have hq2 := roundFloat64_le 9007199254740991 11 (by norm_num) (by norm_num) (by norm_num)
    (le_trans (by norm_num) hquot1) hquot2
  have hceil := Int.le_ceil (roundFloat64
    (roundFloat64 (-(roundFloat64 ((12000000000000000000 : ℕ) : ℝ)) * amd64.log (1 / 2)) /
      roundFloat64 (Ln2 * Ln2)))
  have hlow : ((7 * 2 ^ 61 : ℤ) : ℝ) ≤
      ((F64.floatM amd64 12000000000000000000 (1 / 2) : ℤ) : ℝ) := by
    unfold F64.floatM
    have hcast : ((7 * 2 ^ 61 : ℤ) : ℝ) = 16140901064495857664 := by norm_num
    rw [hcast]
    exact le_trans hq1 hceil
  have hhigh : F64.floatM amd64 12000000000000000000 (1 / 2) ≤ 18446744073709549568 := by
    unfold F64.floatM
    rw [Int.ceil_le]
    have hcast : ((18446744073709549568 : ℤ) : ℝ) = 18446744073709549568 := by norm_num
    rw [hcast]
    exact hq2
  have hlow' : (7 * 2 ^ 61 : ℤ) ≤ F64.floatM amd64 12000000000000000000 (1 / 2) := by
    exact_mod_cast hlow
  constructor <;> omega

/-- C16, counterexample. In float64 with the amd64 conversion, `n1 = 12 * 10^18`,
`n2 = 2^64 - 1` and `p1 = p2 = 0.5` satisfy the hypotheses of the claim; the quotient for
`n2` is beyond `2^64` and its conversion gives `optimalM(n2, p2) = 2^63`, while
`optimalM(n1, p1)` is at least `7 * 2^61`: the larger capacity gets the smaller `m`. -/
theorem optimalM_not_monotone :
    (0 : ℕ) < 12000000000000000000 ∧ (12000000000000000000 : ℕ) ≤ 18446744073709551615 ∧
      (0 : ℝ) < 1 / 2 ∧ (1 / 2 : ℝ) ≤ 1 / 2 ∧ (1 / 2 : ℝ) < 1 ∧
      F64.optimalM amd64 18446744073709551615 (1 / 2) = 2 ^ 63 ∧
      7 * 2 ^ 61 ≤ F64.optimalM amd64 12000000000000000000 (1 / 2) ∧
      F64.optimalM amd64 18446744073709551615 (1 / 2) <
        F64.optimalM amd64 12000000000000000000 (1 / 2) := by
  have h2 : F64.optimalM amd64 18446744073709551615 (1 / 2) = 2 ^ 63 := by
    have hov := floatM_overflow
    unfold F64.optimalM toUint64
    rw [if_neg (by omega)]
    exact amd64_overflow _ hov
  have h1 : 7 * 2 ^ 61 ≤ F64.optimalM amd64 12000000000000000000 (1 / 2) := by
    obtain ⟨hlo, hhi⟩ := floatM_in_range
    unfold F64.optimalM
    rw [toUint64_of_range amd64 _ (by omega) hhi]
    omega
  refine ⟨by decide, by decide, by norm_num, le_rfl, by norm_num, h2, h1, ?_⟩
  rw [h2]
  omega

end Bloomfilter
